import Mathlib

/-
Verification of the slate editing core: a shallow embedding of the
operation applier (src/src/operations/apply.js) and of the by-key
transform layer (the transforms source file), together with proofs about
the selection-rebasing and path-recomputation behaviour of each
operation.

Conventions of the embedding:
* JS `throw` (a path or key that fails to resolve, a missing method on a
  node of the wrong kind, joining with no previous sibling) is modelled
  by `Option`: `none` is a fatal failure, `some` a produced state.
* Keys are natural numbers; the global fresh-key generator
  (`regenerateKey`) is modelled by passing the generated key explicitly
  (`newKey` on `split_node`) and, at the transform layer, by a counter
  threaded through `TState`.
* Selection offsets are integers (JS numbers used only for comparison
  and shifting); list indices and text offsets are naturals.
* The document query surface (getPath, getParent, getTexts, previous and
  next text in document order, ...) belongs to the Node model classes,
  which are not part of the two source files; those definitions are
  modelled from the spec, as their doc comments state.
-/

namespace Slate

/-- A character-level formatting value (spec §3 Mark: "immutable value
(type + data), compared by value"); the data bag is irrelevant to every
claim and omitted. -/
structure Mark where
  markType : String
deriving DecidableEq, Repr

/-- One character of a Text node together with the set of marks applied
to it (the `characters` representation of slate Text nodes). -/
structure Character where
  char : Char
  marks : List Mark
deriving DecidableEq, Repr

/-- A contiguous run of text sharing one mark set (spec §3 Range). -/
structure TextRange where
  text : List Char
  marks : List Mark
deriving DecidableEq, Repr

/-- The three container kinds of the document tree (spec §3). -/
inductive ContainerKind where
  | document
  | block
  | inlineKind
deriving DecidableEq, Repr

/-- Node kinds as the source's `kind` strings: document, block, inline,
text. -/
inductive NodeKind where
  | document
  | block
  | inlineKind
  | text
deriving DecidableEq, Repr

/-- Document tree node (spec §3): Document/Block/Inline containers carry
an ordered sequence of children plus a `type`; Text leaves carry
characters, whose maximal equal-mark runs are the node's ranges. -/
inductive Node where
  | text (key : Nat) (characters : List Character)
  | container (ckind : ContainerKind) (key : Nat) (typ : String) (nodes : List Node)

mutual

def nodeDecEq : (a b : Node) → Decidable (a = b)
  | .text k1 cs1, .text k2 cs2 =>
    if h1 : k1 = k2 then
      if h2 : cs1 = cs2 then isTrue (by rw [h1, h2])
      else isFalse (by intro h; cases h; exact h2 rfl)
    else isFalse (by intro h; cases h; exact h1 rfl)
  | .text _ _, .container _ _ _ _ => isFalse (by intro h; cases h)
  | .container _ _ _ _, .text _ _ => isFalse (by intro h; cases h)
  | .container kd1 k1 t1 ns1, .container kd2 k2 t2 ns2 =>
    if h1 : kd1 = kd2 then
      if h2 : k1 = k2 then
        if h3 : t1 = t2 then
          match nodeListDecEq ns1 ns2 with
          | isTrue h4 => isTrue (by rw [h1, h2, h3, h4])
          | isFalse h4 => isFalse (by intro h; cases h; exact h4 rfl)
        else isFalse (by intro h; cases h; exact h3 rfl)
      else isFalse (by intro h; cases h; exact h2 rfl)
    else isFalse (by intro h; cases h; exact h1 rfl)

def nodeListDecEq : (a b : List Node) → Decidable (a = b)
  | [], [] => isTrue rfl
  | [], _ :: _ => isFalse (by intro h; cases h)
  | _ :: _, [] => isFalse (by intro h; cases h)
  | n :: ns, m :: ms =>
    match nodeDecEq n m with
    | isTrue h1 =>
      match nodeListDecEq ns ms with
      | isTrue h2 => isTrue (by rw [h1, h2])
      | isFalse h2 => isFalse (by intro h; cases h; exact h2 rfl)
    | isFalse h1 => isFalse (by intro h; cases h; exact h1 rfl)

end

instance : DecidableEq Node := nodeDecEq

/-- The stable key of a node (spec §3: globally unique, preserved across
structural-sharing copies). -/
def Node.key : Node → Nat
  | .text k _ => k
  | .container _ k _ _ => k

/-- The `kind` tag of a node, as the source's kind strings. -/
def Node.kind : Node → NodeKind
  | .text _ _ => .text
  | .container .document _ _ _ => .document
  | .container .block _ _ _ => .block
  | .container .inlineKind _ _ _ => .inlineKind

/-- The ordered children of a container (`node.nodes`); a Text node has
none. -/
def Node.children : Node → List Node
  | .text _ _ => []
  | .container _ _ _ ns => ns

/-- Character length of a Text node (`text.length` in the source);
containers are never queried for it by the modelled code paths. -/
def Node.textLength : Node → Nat
  | .text _ cs => cs.length
  | .container _ _ _ _ => 0

/-- The characters of a Text node; `none` on a container (whose JS class
has no text methods, so calling them throws). -/
def Node.asTextChars : Node → Option (List Character)
  | .text _ cs => some cs
  | .container _ _ _ _ => none

/-- The `type` of a container node; a Text record has no type field. -/
def Node.nodeType : Node → Option String
  | .text _ _ => none
  | .container _ _ t _ => some t

mutual

/-- Modelled from the spec (§6 document query surface, key→path
resolution): the path of the first pre-order occurrence of `k` strictly
inside this node. -/
def findPathIn (k : Nat) : Node → Option (List Nat)
  | .text _ _ => none
  | .container _ _ _ ns => findPathFrom k 0 ns

/-- Modelled from the spec: pre-order search of a forest for key `k`,
with `i` the index of the first listed child in its parent. -/
def findPathFrom (k : Nat) : Nat → List Node → Option (List Nat)
  | _, [] => none
  | i, n :: rest =>
    if n.key = k then some [i]
    else
      match findPathIn k n with
      | some p => some (i :: p)
      | none => findPathFrom k (i + 1) rest

end

/-- Modelled from the spec (§6: "key→path ... resolution (fatal if
absent)"): `getPath` of the source Node classes. The root itself has
path `[]`. -/
def getPath (doc : Node) (k : Nat) : Option (List Nat) :=
  if doc.key = k then some [] else findPathIn k doc

/-- Modelled from the spec (§6: "path→node resolution (fatal if
absent)"): walk a path of child indices from this node. -/
def assertPath : Node → List Nat → Option Node
  | n, [] => some n
  | n, i :: rest =>
    match (Node.children n)[i]? with
    | some c => assertPath c rest
    | none => none

/-- Modelled from the spec: `getNode`, resolving a key to the node (the
root included) carrying it. -/
def getNode (doc : Node) (k : Nat) : Option Node :=
  (getPath doc k).bind (assertPath doc)

/-- Modelled from the spec (§6 parent lookup): the parent of the node
carrying `k`; `none` for the root or an absent key. -/
def getParent (doc : Node) (k : Nat) : Option Node :=
  match getPath doc k with
  | some [] => none
  | some p => assertPath doc p.dropLast
  | none => none

/-- The nodes at the proper prefixes of a path, root first. -/
def ancestorsAlong : Node → List Nat → List Node
  | _, [] => []
  | n, i :: rest =>
    match (Node.children n)[i]? with
    | some c => n :: ancestorsAlong c rest
    | none => [n]

/-- Modelled from the spec (§6 ancestor lookup): the ancestors of the
node carrying `k`, ordered from the root down to the immediate parent;
`none` if the key does not resolve. -/
def getAncestors (doc : Node) (k : Nat) : Option (List Node) :=
  (getPath doc k).map (ancestorsAlong doc)

mutual

/-- Modelled from the spec (§3/§6): every key in the subtree, in
pre-order (the node's own key first). -/
def allKeysN : Node → List Nat
  | .text k _ => [k]
  | .container _ k _ ns => k :: allKeysF ns

def allKeysF : List Node → List Nat
  | [] => []
  | n :: rest => allKeysN n ++ allKeysF rest

end

/-- `node.hasNode(key)` of the source: does the subtree (itself
included) contain the key? -/
def hasKey (n : Node) (k : Nat) : Bool :=
  (allKeysN n).contains k

mutual

/-- Modelled from the spec (§6: text-node enumeration underlying
"previous/next text-node-in-document-order lookup"): the Text leaves of
the subtree in document (pre-)order. -/
def getTexts : Node → List Node
  | .text k cs => [.text k cs]
  | .container _ _ _ ns => getTextsL ns

def getTextsL : List Node → List Node
  | [] => []
  | n :: rest => getTexts n ++ getTextsL rest

end

/-- Modelled from the spec (§6): the nearest text node preceding the one
carrying `k` in document order. -/
def getPreviousText (doc : Node) (k : Nat) : Option Node :=
  ((getTexts doc).takeWhile (fun t => t.key != k)).getLast?

/-- Modelled from the spec (§6): the nearest text node following the one
carrying `k` in document order. -/
def getNextText (doc : Node) (k : Nat) : Option Node :=
  ((getTexts doc).dropWhile (fun t => t.key != k))[1]?

/-- Modelled from the spec (§4.2: removeTextByKey renormalizes at "the
closest block"): the nearest ancestor of block kind. -/
def getClosestBlock (doc : Node) (k : Nat) : Option Node :=
  (getAncestors doc k).bind (fun as => as.reverse.find? (fun a => a.kind == NodeKind.block))

/-- Replace the subtree at a path (out-of-range steps leave the tree
unchanged; callers resolve the path first). -/
def setAtPath : Node → List Nat → Node → Node
  | _, [], d => d
  | n, i :: rest, d =>
    match n with
    | .text k cs => .text k cs
    | .container kd k t ns =>
      match ns[i]? with
      | some c => .container kd k t (ns.set i (setAtPath c rest d))
      | none => .container kd k t ns

/-- Modelled from the spec (§4.1: after an edit "the node is swapped
into the tree by key"): replace the first pre-order occurrence of the
node's key; the root itself is not a descendant and is never replaced. -/
def updateDescendant (doc d : Node) : Node :=
  match getPath doc d.key with
  | some [] => doc
  | some p => setAtPath doc p d
  | none => doc

/-- `nodes.indexOf(node)` of the applier: index of the first
value-equal occurrence (the appliers only call it with a child just
resolved from the same list, where JS reference and value equality
agree). -/
def indexOfNode : List Node → Node → Nat
  | [], _ => 0
  | n :: rest, v => if n = v then 0 else indexOfNode rest v + 1

/-- `parent.insertNode(index, node)`: insert a child at `index`
(clamped, as Immutable's splice clamps); a Text node has no such method,
so `none`. -/
def Node.insertNode : Node → Nat → Node → Option Node
  | .text _ _, _, _ => none
  | .container kd k t ns, i, nd => some (.container kd k t (ns.take i ++ [nd] ++ ns.drop i))

/-- `parent.removeNode(index)`: delete the child at `index`. -/
def Node.removeNode : Node → Nat → Option Node
  | .text _ _, _ => none
  | .container kd k t ns, i => some (.container kd k t (ns.eraseIdx i))

/-- `parent.joinNode(withIndex, index)` (spec §4.1 join_node): merge the
child at `index` into the child at `withIndex` — characters concatenate
for Text children, child lists concatenate for containers (a
kind-mismatched pair has no such merge and fails) — keeping the first
child's key and discarding the second child. -/
def Node.joinNode : Node → Nat → Nat → Option Node
  | .text _ _, _, _ => none
  | .container kd k t ns, wi, i => do
    let one ← ns[wi]?
    let two ← ns[i]?
    let merged ←
      match one, two with
      | .text k1 cs1, .text _ cs2 => some (Node.text k1 (cs1 ++ cs2))
      | .container kd1 k1 t1 ns1, .container _ _ _ ns2 => some (Node.container kd1 k1 t1 (ns1 ++ ns2))
      | _, _ => none
    some (.container kd k t ((ns.set wi merged).eraseIdx i))

/-- `parent.splitNode(index, position)` (spec §4.1 split_node): split
the child at `index` at `position` — a character offset for a Text
child, a child index for a container — into two siblings; the left half
keeps the original key, the right half receives the freshly generated
`newKey`. -/
def Node.splitNode : Node → Nat → Nat → Nat → Option Node
  | .text _ _, _, _, _ => none
  | .container kd k t ns, i, pos, newKey => do
    let child ← ns[i]?
    let pair :=
      match child with
      | .text tk cs => (Node.text tk (cs.take pos), Node.text newKey (cs.drop pos))
      | .container ckd ck ct cns =>
        (Node.container ckd ck ct (cns.take pos), Node.container ckd newKey ct (cns.drop pos))
    some (.container kd k t (ns.take i ++ [pair.1, pair.2] ++ ns.drop (i + 1)))

/-- `node.insertText(offset, text, marks)` on a Text node: splice the
characters in at `offset`, each carrying the operation's marks (the
marks-defaulting of an absent marks argument is outside every claim). -/
def Node.insertText : Node → Nat → List Char → List Mark → Option Node
  | .text k cs, offset, txt, marks =>
    some (.text k (cs.take offset ++ txt.map (fun ch => ⟨ch, marks⟩) ++ cs.drop offset))
  | .container _ _ _ _, _, _, _ => none

/-- `node.removeText(offset, length)` on a Text node: delete `length`
characters starting at `offset`. -/
def Node.removeText : Node → Nat → Nat → Option Node
  | .text k cs, offset, len => some (.text k (cs.take offset ++ cs.drop (offset + len)))
  | .container _ _ _ _, _, _ => none

/-- Modelled from the spec (§3: a Text's ranges "must partition its
text with no gaps or overlaps", equal-mark neighbours coalesced):
accumulate the current run (reversed) and its mark set. -/
def getRangesAux : List Character → List Char → List Mark → List TextRange
  | [], acc, m => [⟨acc.reverse, m⟩]
  | c :: rest, acc, m =>
    if c.marks = m then getRangesAux rest (c.char :: acc) m
    else ⟨acc.reverse, m⟩ :: getRangesAux rest [c.char] c.marks

/-- Modelled from the spec (§6: "enumeration of a Text node's ranges"):
the maximal runs of equal-mark characters. -/
def getRanges : List Character → List TextRange
  | [] => []
  | c :: rest => getRangesAux rest [c.char] c.marks

/-- Modelled from the spec (§3 Selection): anchor and focus points as
(key, offset) pairs; `isBackward` records that the focus precedes the
anchor in document order, making start/end derived accessors. -/
structure Selection where
  anchorKey : Option Nat
  anchorOffset : Int
  focusKey : Option Nat
  focusOffset : Int
  isBackward : Bool
deriving DecidableEq, Repr

/-- The selection's "is set" flag (spec §3): both endpoint keys present. -/
def Selection.isSet (s : Selection) : Bool :=
  s.anchorKey.isSome && s.focusKey.isSome

def Selection.startKey (s : Selection) : Option Nat :=
  if s.isBackward then s.focusKey else s.anchorKey

def Selection.startOffset (s : Selection) : Int :=
  if s.isBackward then s.focusOffset else s.anchorOffset

def Selection.endKey (s : Selection) : Option Nat :=
  if s.isBackward then s.anchorKey else s.focusKey

def Selection.endOffset (s : Selection) : Int :=
  if s.isBackward then s.anchorOffset else s.focusOffset

/-- `selection.moveAnchor(n)`: shift the anchor offset by `n`. -/
def Selection.moveAnchor (s : Selection) (n : Int) : Selection :=
  { s with anchorOffset := s.anchorOffset + n }

/-- `selection.moveFocus(n)`: shift the focus offset by `n`. -/
def Selection.moveFocus (s : Selection) (n : Int) : Selection :=
  { s with focusOffset := s.focusOffset + n }

/-- `selection.moveAnchorTo(key, offset)`. -/
def Selection.moveAnchorTo (s : Selection) (k : Nat) (o : Int) : Selection :=
  { s with anchorKey := some k, anchorOffset := o }

/-- `selection.moveFocusTo(key, offset)`. -/
def Selection.moveFocusTo (s : Selection) (k : Nat) (o : Int) : Selection :=
  { s with focusKey := some k, focusOffset := o }

/-- `selection.moveStartTo(key, offset)`: the start is the focus of a
backward selection, the anchor otherwise. -/
def Selection.moveStartTo (s : Selection) (k : Nat) (o : Int) : Selection :=
  if s.isBackward then s.moveFocusTo k o else s.moveAnchorTo k o

/-- `selection.moveEndTo(key, offset)`. -/
def Selection.moveEndTo (s : Selection) (k : Nat) (o : Int) : Selection :=
  if s.isBackward then s.moveAnchorTo k o else s.moveFocusTo k o

/-- `selection.deselect()`: clear both endpoints. -/
def Selection.deselect (_ : Selection) : Selection :=
  ⟨none, 0, none, 0, false⟩

/-- The editor state seen by the applier: document plus selection (the
data bag only matters to set_data, which no claim concerns). -/
structure State where
  document : Node
  selection : Selection
deriving DecidableEq

/-- The mergeable property surface of `set_node` (spec §6): a key, a
child collection, and the remaining shallow-mergeable content,
represented by the node `type`. `none` is an absent field. -/
structure Props where
  key : Option Nat
  nodes : Option (List Node)
  typ : Option String
deriving DecidableEq

/-- `node.merge(properties)`: shallow merge; fields a Text record does
not have (children, type) are ignored on Text nodes, as Immutable
records ignore unknown keys. -/
def Node.mergeProps : Node → Props → Node
  | .text k cs, props => .text (props.key.getD k) cs
  | .container kd k t ns, props =>
    .container kd (props.key.getD k) (props.typ.getD t) (props.nodes.getD ns)

/-- The `insert_text` applier (apply.js): splice text into the Text node
at `path`; an endpoint on that node at or after the insertion offset
moves forward by the inserted length. -/
def insert_text (s : State) (path : List Nat) (offset : Nat) (text : List Char)
    (marks : List Mark) : Option State := do
  let sel := s.selection
  let node ← assertPath s.document path
  let node ← node.insertText offset text marks
  let document := updateDescendant s.document node
  let sel1 :=
    if sel.anchorKey = some node.key ∧ (offset : Int) ≤ sel.anchorOffset then
      sel.moveAnchor text.length
    else sel
  let sel2 :=
    if sel.focusKey = some node.key ∧ (offset : Int) ≤ sel.focusOffset then
      sel1.moveFocus text.length
    else sel1
  some { document := document, selection := sel2 }

/-- The `remove_text` applier (apply.js): an endpoint on the node at or
after the removed span's end moves backward by the removed length; then
the characters are deleted. -/
def remove_text (s : State) (path : List Nat) (offset : Nat) (text : List Char) : Option State := do
  let len := text.length
  let rangeOffset := offset + len
  let sel := s.selection
  let node ← assertPath s.document path
  let sel1 :=
    if sel.anchorKey = some node.key ∧ (rangeOffset : Int) ≤ sel.anchorOffset then
      sel.moveAnchor (-(len : Int))
    else sel
  let sel2 :=
    if sel.focusKey = some node.key ∧ (rangeOffset : Int) ≤ sel.focusOffset then
      sel1.moveFocus (-(len : Int))
    else sel1
  let node ← node.removeText offset len
  let document := updateDescendant s.document node
  some { document := document, selection := sel2 }

/-- The `join_node` applier (apply.js): merge the node at `path` into
its previous sibling (fatal when there is none, spec §4.1); when the
retained node is a Text, an endpoint on the removed node relocates to it
at `one.length + offset`. -/
def join_node (s : State) (path : List Nat) : Option State := do
  let lastIdx ← path.getLast?
  if lastIdx = 0 then none
  else do
    let withPath := path.dropLast ++ [lastIdx - 1]
    let one ← assertPath s.document withPath
    let two ← assertPath s.document path
    let parent ← getParent s.document one.key
    let oneIndex := indexOfNode parent.children one
    let twoIndex := indexOfNode parent.children two
    let parent ← parent.joinNode oneIndex twoIndex
    let document :=
      if parent.key = s.document.key then parent else updateDescendant s.document parent
    let sel := s.selection
    let sel2 :=
      if one.kind = NodeKind.text then
        let sel1 :=
          if sel.anchorKey = some two.key then
            sel.moveAnchorTo one.key ((one.textLength : Int) + sel.anchorOffset)
          else sel
        if sel.focusKey = some two.key then
          sel1.moveFocusTo one.key ((one.textLength : Int) + sel.focusOffset)
        else sel1
      else sel
    some { document := document, selection := sel2 }

/-- The `move_node` applier (apply.js): remove the node at `path`, then
resolve the destination parent — (a) the just-updated old parent when
the parent paths are equal, (b) the new parent path with the index at
the old parent's depth decremented when the old parent path is a proper
prefix of it and the old index was below that entry, (c) the new parent
path resolved fresh against the post-removal document — and insert at
the new index. -/
def move_node (s : State) (path newPath : List Nat) : Option State := do
  let newIndex ← newPath.getLast?
  let newParentPath := newPath.dropLast
  let oldParentPath := path.dropLast
  let oldIndex ← path.getLast?
  let node ← assertPath s.document path
  let parent ← getParent s.document node.key
  let parent ← parent.removeNode oldIndex
  let document :=
    if parent.kind = NodeKind.document then parent else updateDescendant s.document parent
  let target ←
    if oldParentPath = newParentPath then
      some parent
    else
      match newParentPath[oldParentPath.length]? with
      | some v =>
        if oldParentPath.isPrefixOf newParentPath ∧ oldIndex < v then
          assertPath document (newParentPath.set oldParentPath.length (v - 1))
        else assertPath document newParentPath
      | none => assertPath document newParentPath
  let target ← target.insertNode newIndex node
  let document :=
    if target.kind = NodeKind.document then target else updateDescendant document target
  some { s with document := document }

/-- The `remove_node` applier (apply.js): relocate any selection
endpoint lying inside the doomed subtree — to the previous text in
document order at its end, else the next text at offset 0, else
deselect — then delete the node from its parent. -/
def remove_node (s : State) (path : List Nat) : Option State := do
  let node ← assertPath s.document path
  let sel := s.selection
  let selFinal :=
    if sel.isSet then
      let sel1 :=
        match sel.startKey with
        | some sk =>
          if hasKey node sk then
            match getPreviousText s.document sk with
            | some prev => sel.moveStartTo prev.key (prev.textLength : Int)
            | none =>
              match getNextText s.document sk with
              | some nxt => sel.moveStartTo nxt.key 0
              | none => sel.deselect
          else sel
        | none => sel
      let sel2 :=
        match sel.endKey with
        | some ek =>
          if hasKey node ek then
            match getPreviousText s.document ek with
            | some prev => sel1.moveEndTo prev.key (prev.textLength : Int)
            | none =>
              match getNextText s.document ek with
              | some nxt => sel1.moveEndTo nxt.key 0
              | none => sel1.deselect
          else sel1
        | none => sel1
      sel2
    else sel
  let parent ← getParent s.document node.key
  let index := indexOfNode parent.children node
  let isParent := s.document = parent
  let parent ← parent.removeNode index
  let document := if isParent then parent else updateDescendant s.document parent
  some { document := document, selection := selFinal }

/-- The two deprecation guards of the `set_node` applier: an attempt to
overwrite the node's child collection or its key is dropped (each
surfacing a non-fatal warning, a pure side channel outside the state). -/
def cleanNodeProps (node : Node) (properties : Props) : Props :=
  let properties :=
    if properties.nodes.isSome ∧ properties.nodes ≠ some node.children then
      { properties with nodes := none }
    else properties
  if properties.key.isSome ∧ properties.key ≠ some node.key then
    { properties with key := none }
  else properties

/-- The `set_node` applier (apply.js): drop an attempt to overwrite the
child collection or the key, then shallow-merge the rest and swap the
node in. -/
def set_node (s : State) (path : List Nat) (properties : Props) : Option State := do
  let node ← assertPath s.document path
  let properties := cleanNodeProps node properties
  let node := node.mergeProps properties
  let document :=
    if node.kind = NodeKind.document then node else updateDescendant s.document node
  some { s with document := document }

/-- The `split_node` applier (apply.js): split the node at `path` by its
parent; an endpoint on the original node at or after `position`
relocates to the next text in the post-split document (the freshly
keyed right half) with its offset reduced by `position`. -/
def split_node (s : State) (path : List Nat) (position : Nat) (newKey : Nat) : Option State := do
  let node ← assertPath s.document path
  let parent ← getParent s.document node.key
  let index := indexOfNode parent.children node
  let isParent := parent = s.document
  let parent ← parent.splitNode index position newKey
  let document := if isParent then parent else updateDescendant s.document parent
  let sel := s.selection
  let next := getNextText document node.key
  let sel1 ←
    if sel.startKey = some node.key ∧ (position : Int) ≤ sel.startOffset then
      match next with
      | some nxt => some (sel.moveStartTo nxt.key (sel.startOffset - position))
      | none => none
    else some sel
  let sel2 ←
    if sel.endKey = some node.key ∧ (position : Int) ≤ sel.endOffset then
      match next with
      | some nxt => some (sel1.moveEndTo nxt.key (sel.endOffset - position))
      | none => none
    else some sel1
  some { document := document, selection := sel2 }

/-- The operation records the claims concern (spec §6); mark, data and
selection operations are outside every claim and omitted. `split_node`
carries the key its regenerated right half receives (the global
generator made explicit); `remove_text` carries the marks the emitting
transform attaches. -/
inductive Op where
  | insert_text (path : List Nat) (offset : Nat) (text : List Char) (marks : List Mark)
  | remove_text (path : List Nat) (offset : Nat) (text : List Char) (marks : List Mark)
  | split_node (path : List Nat) (position : Nat) (newKey : Nat)
  | join_node (path : List Nat) (position : Nat)
  | move_node (path : List Nat) (newPath : List Nat)
  | remove_node (path : List Nat)
  | set_node (path : List Nat) (properties : Props)
deriving DecidableEq

/-- The applier dispatcher (apply.js applyOperation): one handler per
tag; the closed inductive realizes the spec §7(d) exhaustiveness. The
`join_node` position and `remove_text` marks fields are carried by the
operation but ignored by their appliers, as in the source. -/
def applyOperation (s : State) : Op → Option State
  | .insert_text path offset text marks => insert_text s path offset text marks
  | .remove_text path offset text _ => remove_text s path offset text
  | .split_node path position newKey => split_node s path position newKey
  | .join_node path _ => join_node s path
  | .move_node path newPath => move_node s path newPath
  | .remove_node path => remove_node s path
  | .set_node path properties => set_node s path properties

/-- A trace event of the transform layer: an operation applied, or a
normalization request for the subtree of a key. -/
inductive Event where
  | applyOp (op : Op)
  | normalizeKey (key : Nat)
deriving DecidableEq

/-- Transform-layer state: the editor state, the fresh-key counter
(modelling the global key generator), and the emitted trace. -/
structure TState where
  state : State
  nextKey : Nat
  events : List Event
deriving DecidableEq

/-- `transform.applyOperation(op)`: apply through the dispatcher and
record the operation. -/
def applyOperationT (t : TState) (op : Op) : Option TState := do
  let s ← applyOperation t.state op
  some { t with state := s, events := t.events ++ [.applyOp op] }

/-- Modelled from the spec (§2, §6: the Normalizer is an external
collaborator invoked by the transform layer): recorded as an event,
leaving the state itself untouched. -/
def normalizeNodeByKey (t : TState) (k : Nat) : TState :=
  { t with events := t.events ++ [.normalizeKey k] }

/-- `Transforms.splitNodeByKey(key, position, options)`: resolve the
path fresh, apply one split_node (consuming a fresh key for the right
half), and by default normalize at the parent resolved against the
pre-operation document. -/
def splitNodeByKey (t : TState) (key : Nat) (position : Nat) (normalize : Bool) :
    Option TState := do
  let document := t.state.document
  let path ← getPath document key
  let newKey := t.nextKey
  let t1 ← applyOperationT { t with nextKey := t.nextKey + 1 } (.split_node path position newKey)
  if normalize then do
    let parent ← getParent document key
    some (normalizeNodeByKey t1 parent.key)
  else some t1

/-- The forEach loop of `Transforms.splitDescendantsByKey`: walk the
node chain upward, splitting each node at the derived index — the text
offset for the text node, one past the previous (lower) node's old index
for each ancestor — with normalization suppressed. -/
def splitDescLoop (textOffset : Nat) : List Node → Option Node → TState → Option TState
  | [], _, t => some t
  | n :: rest, previous, t => do
    let index :=
      match previous with
      | none => textOffset
      | some p => indexOfNode n.children p + 1
    let t1 ← splitNodeByKey t n.key index false
    splitDescLoop textOffset rest (some n) t1

/-- The index derivation of the `splitDescendantsByKey` loop (`const
index = previous ? node.nodes.indexOf(previous) + 1 : textOffset`): the
text offset for the first chain node, one past the previous chain node's
index among the current node's (stale) children for each later one. -/
def derivedPositions (textOffset : Nat) : List Node → Option Node → List Nat
  | [], _ => []
  | n :: rest, previous =>
    (match previous with
     | none => textOffset
     | some p => indexOfNode n.children p + 1) :: derivedPositions textOffset rest (some n)

/-- `Transforms.splitDescendantsByKey(key, textKey, textOffset,
options)`: a single split when the keys agree; otherwise split the text
node and the ancestors from the one named `key` downward (taken until
the named ancestor, reversed, the text node prepended), each split
suppressing normalization, then normalize once at the named node's
parent in the original document. -/
def splitDescendantsByKey (t : TState) (key textKey : Nat) (textOffset : Nat)
    (normalize : Bool) : Option TState :=
  if key = textKey then splitNodeByKey t textKey textOffset normalize
  else do
    let document := t.state.document
    let text ← getNode document textKey
    let ancestors ← getAncestors document textKey
    let nodes := (ancestors.dropWhile (fun a => a.key != key)).reverse
    let nodes := text :: nodes
    let t1 ← splitDescLoop textOffset nodes none t
    if normalize then do
      let parent ← getParent document key
      some (normalizeNodeByKey t1 parent.key)
    else some t1

/-- The removal-building loop of `Transforms.removeTextByKey`: walk the
ranges with the running offset `o`; every range overlapping the span
`[bx, bEnd)` contributes one remove_text of its overlap with the span
(the clipped slice of the node's text), carrying the range's marks. -/
def buildRemovals (path : List Nat) (text : List Char) (bx bEnd : Nat) :
    List TextRange → Nat → List Op
  | [], _ => []
  | r :: rest, o =>
    let ax := o
    let ay := ax + r.text.length
    let here :=
      if ay < bx ∨ bEnd < ax then []
      else
        let start := max ax bx
        let stop := min ay bEnd
        [Op.remove_text path start ((text.drop start).take (stop - start)) r.marks]
    here ++ buildRemovals path text bx bEnd rest (o + r.text.length)

/-- `Transforms.removeTextByKey(key, offset, length, options)`:
decompose the span into per-range removals, apply them in reverse
order, and by default normalize at the closest block of the original
document. -/
def removeTextByKey (t : TState) (key offset length : Nat) (normalize : Bool) :
    Option TState := do
  let document := t.state.document
  let path ← getPath document key
  let node ← getNode document key
  let cs ← node.asTextChars
  let ranges := getRanges cs
  let text := cs.map (fun c => c.char)
  let removals := buildRemovals path text offset (offset + length) ranges 0
  let t1 ← removals.reverse.foldlM applyOperationT t
  if normalize then do
    let block ← getClosestBlock document key
    some (normalizeNodeByKey t1 block.key)
  else some t1

/-- The character-level effect of one remove_text operation: the
take/drop splice of `Node.removeText` at the operation's offset and
text length. -/
def eraseChars : Op → List Character → List Character
  | .remove_text _ offset txt _, cs => cs.take offset ++ cs.drop (offset + txt.length)
  | _, cs => cs

/-- Total character length of a range list. -/
def sumRangeLens (rs : List TextRange) : Nat :=
  (rs.map (fun r => r.text.length)).sum

/-- The offset field of a remove_text operation. -/
def opOffset : Op → Nat
  | .remove_text _ offset _ _ => offset
  | _ => 0

end Slate

namespace Slate

/-- Joint induction over nodes and forests, positionally instantiating
the nested recursor. -/
theorem nodeInd (P : Node → Prop) (Q : List Node → Prop)
    (htext : ∀ k cs, P (.text k cs))
    (hcont : ∀ kd k t ns, Q ns → P (.container kd k t ns))
    (hnil : Q [])
    (hcons : ∀ n rest, P n → Q rest → Q (n :: rest)) :
    ∀ n, P n :=
  fun n => @Node.rec P Q htext hcont hnil hcons n

theorem forestInd (P : Node → Prop) (Q : List Node → Prop)
    (htext : ∀ k cs, P (.text k cs))
    (hcont : ∀ kd k t ns, Q ns → P (.container kd k t ns))
    (hnil : Q [])
    (hcons : ∀ n rest, P n → Q rest → Q (n :: rest)) :
    ∀ ns, Q ns :=
  fun ns =>
    List.rec hnil (fun n rest ih => hcons n rest (nodeInd P Q htext hcont hnil hcons n) ih) ns

/-- C3: for every state and insert_text operation, each selection
endpoint on the edited Text node with offset at or after the insertion
offset moves forward by the inserted length, an endpoint strictly
before it is unchanged, and endpoint keys are unchanged. -/
theorem insert_text_rebases_selection
    (s : State) (path : List Nat) (offset : Nat) (txt : List Char) (marks : List Mark)
    (nd : Node) (s2 : State)
    (hnd : assertPath s.document path = some nd)
    (hs : insert_text s path offset txt marks = some s2) :
    s2.selection.anchorKey = s.selection.anchorKey ∧
    s2.selection.focusKey = s.selection.focusKey ∧
    s2.selection.anchorOffset =
      (if s.selection.anchorKey = some nd.key ∧ (offset : Int) ≤ s.selection.anchorOffset
       then s.selection.anchorOffset + txt.length else s.selection.anchorOffset) ∧
    s2.selection.focusOffset =
      (if s.selection.focusKey = some nd.key ∧ (offset : Int) ≤ s.selection.focusOffset
       then s.selection.focusOffset + txt.length else s.selection.focusOffset) := by
  simp only [insert_text, hnd, bind, Option.bind] at hs
  cases nd with
  | container kd k t ns => simp [Node.insertText] at hs
  | text k cs =>
    simp only [Node.insertText, Option.some.injEq] at hs
    subst hs
    simp only [Node.key, Selection.moveAnchor, Selection.moveFocus]
    split_ifs <;> simp_all

/-- C4: for every state and remove_text operation, each selection
endpoint on the edited node with offset at or after the removed span's
end moves backward by the removed length, an endpoint strictly inside
the removed span is left unmodified, and endpoint keys are unchanged. -/
theorem remove_text_rebases_selection
    (s : State) (path : List Nat) (offset : Nat) (txt : List Char)
    (nd : Node) (s2 : State)
    (hnd : assertPath s.document path = some nd)
    (hs : remove_text s path offset txt = some s2) :
    s2.selection.anchorKey = s.selection.anchorKey ∧
    s2.selection.focusKey = s.selection.focusKey ∧
    s2.selection.anchorOffset =
      (if s.selection.anchorKey = some nd.key ∧
          ((offset + txt.length : Nat) : Int) ≤ s.selection.anchorOffset
       then s.selection.anchorOffset - txt.length else s.selection.anchorOffset) ∧
    s2.selection.focusOffset =
      (if s.selection.focusKey = some nd.key ∧
          ((offset + txt.length : Nat) : Int) ≤ s.selection.focusOffset
       then s.selection.focusOffset - txt.length else s.selection.focusOffset) := by
  simp only [remove_text, hnd, bind, Option.bind] at hs
  cases nd with
  | container kd k t ns => simp [Node.removeText] at hs
  | text k cs =>
    simp only [Node.removeText, Option.some.injEq] at hs
    subst hs
    simp only [Node.key, Selection.moveAnchor, Selection.moveFocus]
    split_ifs <;> simp_all <;> omega


theorem insert_text_rebases_selection_witness :
    (assertPath (Node.container .document 0 "" [Node.text 7 []]) [0] = some (Node.text 7 [])) ∧
    (insert_text ⟨Node.container .document 0 "" [Node.text 7 []], ⟨some 7, 5, some 7, 5, false⟩⟩
        [0] 3 ['x', 'y'] []
      = some ⟨Node.container .document 0 "" [Node.text 7 [⟨'x', []⟩, ⟨'y', []⟩]],
          ⟨some 7, 7, some 7, 7, false⟩⟩) ∧
    ((⟨some 7, 7, some 7, 7, false⟩ : Selection).anchorKey
        = (⟨some 7, 5, some 7, 5, false⟩ : Selection).anchorKey ∧
     (⟨some 7, 7, some 7, 7, false⟩ : Selection).focusKey
        = (⟨some 7, 5, some 7, 5, false⟩ : Selection).focusKey ∧
     (⟨some 7, 7, some 7, 7, false⟩ : Selection).anchorOffset
        = (if (⟨some 7, 5, some 7, 5, false⟩ : Selection).anchorKey
              = some (Node.text 7 []).key ∧
              ((3 : Nat) : Int) ≤ (⟨some 7, 5, some 7, 5, false⟩ : Selection).anchorOffset
           then (⟨some 7, 5, some 7, 5, false⟩ : Selection).anchorOffset + (['x', 'y'].length : Int)
           else (⟨some 7, 5, some 7, 5, false⟩ : Selection).anchorOffset) ∧
     (⟨some 7, 7, some 7, 7, false⟩ : Selection).focusOffset
        = (if (⟨some 7, 5, some 7, 5, false⟩ : Selection).focusKey
              = some (Node.text 7 []).key ∧
              ((3 : Nat) : Int) ≤ (⟨some 7, 5, some 7, 5, false⟩ : Selection).focusOffset
           then (⟨some 7, 5, some 7, 5, false⟩ : Selection).focusOffset + (['x', 'y'].length : Int)
           else (⟨some 7, 5, some 7, 5, false⟩ : Selection).focusOffset)) :=
  ⟨by decide, by decide,
    insert_text_rebases_selection
      ⟨Node.container .document 0 "" [Node.text 7 []], ⟨some 7, 5, some 7, 5, false⟩⟩
      [0] 3 ['x', 'y'] [] (Node.text 7 [])
      ⟨Node.container .document 0 "" [Node.text 7 [⟨'x', []⟩, ⟨'y', []⟩]],
        ⟨some 7, 7, some 7, 7, false⟩⟩
      (by decide) (by decide)⟩

theorem remove_text_rebases_selection_witness :
    (assertPath (Node.container .document 0 "" [Node.text 7 []]) [0] = some (Node.text 7 [])) ∧
    (remove_text ⟨Node.container .document 0 "" [Node.text 7 []], ⟨some 7, 5, some 7, 3, false⟩⟩
        [0] 2 ['a', 'b']
      = some ⟨Node.container .document 0 "" [Node.text 7 []], ⟨some 7, 3, some 7, 3, false⟩⟩) ∧
    ((⟨some 7, 3, some 7, 3, false⟩ : Selection).anchorKey
        = (⟨some 7, 5, some 7, 3, false⟩ : Selection).anchorKey ∧
     (⟨some 7, 3, some 7, 3, false⟩ : Selection).focusKey
        = (⟨some 7, 5, some 7, 3, false⟩ : Selection).focusKey ∧
     (⟨some 7, 3, some 7, 3, false⟩ : Selection).anchorOffset
        = (if (⟨some 7, 5, some 7, 3, false⟩ : Selection).anchorKey
              = some (Node.text 7 []).key ∧
              ((2 + ['a', 'b'].length : Nat) : Int)
                ≤ (⟨some 7, 5, some 7, 3, false⟩ : Selection).anchorOffset
           then (⟨some 7, 5, some 7, 3, false⟩ : Selection).anchorOffset - (['a', 'b'].length : Int)
           else (⟨some 7, 5, some 7, 3, false⟩ : Selection).anchorOffset) ∧
     (⟨some 7, 3, some 7, 3, false⟩ : Selection).focusOffset
        = (if (⟨some 7, 5, some 7, 3, false⟩ : Selection).focusKey
              = some (Node.text 7 []).key ∧
              ((2 + ['a', 'b'].length : Nat) : Int)
                ≤ (⟨some 7, 5, some 7, 3, false⟩ : Selection).focusOffset
           then (⟨some 7, 5, some 7, 3, false⟩ : Selection).focusOffset - (['a', 'b'].length : Int)
           else (⟨some 7, 5, some 7, 3, false⟩ : Selection).focusOffset)) :=
  ⟨by decide, by decide,
    remove_text_rebases_selection
      ⟨Node.container .document 0 "" [Node.text 7 []], ⟨some 7, 5, some 7, 3, false⟩⟩
      [0] 2 ['a', 'b'] (Node.text 7 [])
      ⟨Node.container .document 0 "" [Node.text 7 []], ⟨some 7, 3, some 7, 3, false⟩⟩
      (by decide) (by decide)⟩

/-- C1 counterexample: on a document whose children are [A, B, C] (keys
1, 2, 3), moving A from index 0 to index 2 inside the same parent
produces children [B, C, A] — precisely the outcome the claim says never
happens — and not [B, A, C]. -/
theorem move_node_same_parent_cex :
    (move_node ⟨Node.container .document 0 "" [Node.text 1 [], Node.text 2 [], Node.text 3 []],
        ⟨none, 0, none, 0, false⟩⟩ [0] [2]).map (fun s => s.document.children.map Node.key)
      = some [2, 3, 1] ∧
    (move_node ⟨Node.container .document 0 "" [Node.text 1 [], Node.text 2 [], Node.text 3 []],
        ⟨none, 0, none, 0, false⟩⟩ [0] [2]).map (fun s => s.document.children.map Node.key)
      ≠ some [2, 1, 3] := by
  constructor
  · decide
  · decide

theorem key_mem_allKeysN (n : Node) : n.key ∈ allKeysN n := by
  cases n <;> simp [allKeysN, Node.key]

/-- C1 (amended): with children [A, B, C] under the document root,
moving A (index 0) to index 2 within the same parent reuses the
just-updated (post-removal) parent as the destination and applies the
destination index to the post-removal children, producing [B, C, A];
the selection is untouched. -/
theorem move_node_same_parent (dk : Nat) (dt : String) (A B C : Node) (sel : Selection)
    (h_uniq : (allKeysN (Node.container .document dk dt [A, B, C])).Nodup) :
    move_node ⟨Node.container .document dk dt [A, B, C], sel⟩ [0] [2]
      = some ⟨Node.container .document dk dt [B, C, A], sel⟩ := by
  have hA : A.key ∈ allKeysF [A, B, C] := by
    simp [allKeysF]
    exact Or.inl (key_mem_allKeysN A)
  have hdk : ¬ (dk = A.key) := by
    simp only [allKeysN, List.nodup_cons] at h_uniq
    intro h
    exact h_uniq.1 (h ▸ hA)
  have hroot : (Node.container .document dk dt [A, B, C]).key = dk := rfl
  have hgp : getPath (Node.container .document dk dt [A, B, C]) A.key = some [0] := by
    rw [getPath, hroot, if_neg hdk]
    simp [findPathIn, findPathFrom]
  simp [move_node, bind, Option.bind, assertPath, Node.children, hgp, getParent,
    Node.removeNode, Node.kind, Node.insertNode, List.eraseIdx]

theorem move_node_same_parent_witness :
    ((allKeysN (Node.container .document 0 "x" [Node.text 1 [], Node.text 2 [], Node.text 3 []])).Nodup) ∧
    (move_node ⟨Node.container .document 0 "x" [Node.text 1 [], Node.text 2 [], Node.text 3 []],
        ⟨none, 0, none, 0, false⟩⟩ [0] [2]
      = some ⟨Node.container .document 0 "x" [Node.text 2 [], Node.text 3 [], Node.text 1 []],
          ⟨none, 0, none, 0, false⟩⟩) :=
  ⟨by decide,
    move_node_same_parent 0 "x" (Node.text 1 []) (Node.text 2 []) (Node.text 3 [])
      ⟨none, 0, none, 0, false⟩ (by decide)⟩


/-- C6 (amended): when join_node merges the Text node at `path` into its
previous Text sibling, every selection endpoint whose key is the removed
(second) node's key is relocated to the retained (first) node with
offset = the retained node's character length + the original offset;
when the retained node is not a Text the applier does not rebase (see
the frame property of the container case). -/
theorem join_node_rebases_selection
    (s : State) (p0 : List Nat) (j : Nat) (one two : Node) (s2 : State)
    (h_one : assertPath s.document (p0 ++ [j]) = some one)
    (h_two : assertPath s.document (p0 ++ [j + 1]) = some two)
    (h_text : one.kind = NodeKind.text)
    (hs : join_node s (p0 ++ [j + 1]) = some s2) :
    s2.selection.anchorKey =
      (if s.selection.anchorKey = some two.key then some one.key else s.selection.anchorKey) ∧
    s2.selection.anchorOffset =
      (if s.selection.anchorKey = some two.key
       then (one.textLength : Int) + s.selection.anchorOffset else s.selection.anchorOffset) ∧
    s2.selection.focusKey =
      (if s.selection.focusKey = some two.key then some one.key else s.selection.focusKey) ∧
    s2.selection.focusOffset =
      (if s.selection.focusKey = some two.key
       then (one.textLength : Int) + s.selection.focusOffset else s.selection.focusOffset) := by
  have h1 : (p0 ++ [j + 1]).getLast? = some (j + 1) := by simp
  have h2 : (p0 ++ [j + 1]).dropLast = p0 := by simp
  cases hgp : getParent s.document one.key with
  | none =>
    simp only [join_node, h1, h2, bind, Option.bind, Nat.add_sub_cancel,
      if_neg (Nat.succ_ne_zero j), h_one, h_two, hgp] at hs
    cases hs
  | some parent =>
    cases hj : parent.joinNode (indexOfNode parent.children one)
        (indexOfNode parent.children two) with
    | none =>
      simp only [join_node, h1, h2, bind, Option.bind, Nat.add_sub_cancel,
        if_neg (Nat.succ_ne_zero j), h_one, h_two, hgp, hj] at hs
      cases hs
    | some joined =>
      simp only [join_node, h1, h2, bind, Option.bind, Nat.add_sub_cancel,
        if_neg (Nat.succ_ne_zero j), h_one, h_two, hgp, hj, Option.some.injEq] at hs
      subst hs
      simp only [Selection.moveAnchorTo, Selection.moveFocusTo, h_text]
      split_ifs <;> simp_all

theorem join_node_rebases_selection_witness :
    (assertPath (Node.container .document 0 "" [Node.text 1 [⟨'a', []⟩, ⟨'b', []⟩], Node.text 2 [⟨'c', []⟩]]) [0]
        = some (Node.text 1 [⟨'a', []⟩, ⟨'b', []⟩])) ∧
    (assertPath (Node.container .document 0 "" [Node.text 1 [⟨'a', []⟩, ⟨'b', []⟩], Node.text 2 [⟨'c', []⟩]]) [0 + 1]
        = some (Node.text 2 [⟨'c', []⟩])) ∧
    ((Node.text 1 [⟨'a', []⟩, ⟨'b', []⟩]).kind = NodeKind.text) ∧
    (join_node ⟨Node.container .document 0 "" [Node.text 1 [⟨'a', []⟩, ⟨'b', []⟩], Node.text 2 [⟨'c', []⟩]],
        ⟨some 2, 1, some 2, 0, false⟩⟩ [0 + 1]
      = some ⟨Node.container .document 0 "" [Node.text 1 [⟨'a', []⟩, ⟨'b', []⟩, ⟨'c', []⟩]],
          ⟨some 1, 3, some 1, 2, false⟩⟩) ∧
    ((⟨some 1, 3, some 1, 2, false⟩ : Selection).anchorKey
        = (if (⟨some 2, 1, some 2, 0, false⟩ : Selection).anchorKey = some (Node.text 2 [⟨'c', []⟩]).key
           then some (Node.text 1 [⟨'a', []⟩, ⟨'b', []⟩]).key
           else (⟨some 2, 1, some 2, 0, false⟩ : Selection).anchorKey) ∧
     (⟨some 1, 3, some 1, 2, false⟩ : Selection).anchorOffset
        = (if (⟨some 2, 1, some 2, 0, false⟩ : Selection).anchorKey = some (Node.text 2 [⟨'c', []⟩]).key
           then ((Node.text 1 [⟨'a', []⟩, ⟨'b', []⟩]).textLength : Int)
              + (⟨some 2, 1, some 2, 0, false⟩ : Selection).anchorOffset
           else (⟨some 2, 1, some 2, 0, false⟩ : Selection).anchorOffset) ∧
     (⟨some 1, 3, some 1, 2, false⟩ : Selection).focusKey
        = (if (⟨some 2, 1, some 2, 0, false⟩ : Selection).focusKey = some (Node.text 2 [⟨'c', []⟩]).key
           then some (Node.text 1 [⟨'a', []⟩, ⟨'b', []⟩]).key
           else (⟨some 2, 1, some 2, 0, false⟩ : Selection).focusKey) ∧
     (⟨some 1, 3, some 1, 2, false⟩ : Selection).focusOffset
        = (if (⟨some 2, 1, some 2, 0, false⟩ : Selection).focusKey = some (Node.text 2 [⟨'c', []⟩]).key
           then ((Node.text 1 [⟨'a', []⟩, ⟨'b', []⟩]).textLength : Int)
              + (⟨some 2, 1, some 2, 0, false⟩ : Selection).focusOffset
           else (⟨some 2, 1, some 2, 0, false⟩ : Selection).focusOffset)) :=
  ⟨by decide, by decide, by decide, by decide,
    join_node_rebases_selection
      ⟨Node.container .document 0 "" [Node.text 1 [⟨'a', []⟩, ⟨'b', []⟩], Node.text 2 [⟨'c', []⟩]],
        ⟨some 2, 1, some 2, 0, false⟩⟩
      [] 0 (Node.text 1 [⟨'a', []⟩, ⟨'b', []⟩]) (Node.text 2 [⟨'c', []⟩])
      ⟨Node.container .document 0 "" [Node.text 1 [⟨'a', []⟩, ⟨'b', []⟩, ⟨'c', []⟩]],
        ⟨some 1, 3, some 1, 2, false⟩⟩
      (by decide) (by decide) (by decide) (by decide)⟩

/-- C6 counterexample: joining two container blocks while a selection
endpoint's key is the removed block's key leaves that endpoint exactly
where it was (key 2), instead of relocating it to the retained block
(key 1) at offset base + original as the claim requires for every
state. -/
theorem join_node_container_cex :
    (join_node ⟨Node.container .document 0 ""
        [Node.container .block 1 "p" [Node.text 3 []], Node.container .block 2 "p" [Node.text 4 []]],
        ⟨some 2, 0, some 4, 0, false⟩⟩ [1]).map (fun s => s.selection.anchorKey)
      = some (some 2) ∧
    (join_node ⟨Node.container .document 0 ""
        [Node.container .block 1 "p" [Node.text 3 []], Node.container .block 2 "p" [Node.text 4 []]],
        ⟨some 2, 0, some 4, 0, false⟩⟩ [1]).map (fun s => s.selection.anchorKey)
      ≠ some (some 1) := by
  constructor
  · decide
  · decide

/-- C10: in the join_node applier the selection is rebased only when the
retained previous sibling is a Text node: joining container nodes
returns the selection exactly as it was, even when an endpoint's key
equals the removed node's key. -/
theorem join_node_container_keeps_selection
    (s : State) (p0 : List Nat) (j : Nat) (one : Node) (s2 : State)
    (h_one : assertPath s.document (p0 ++ [j]) = some one)
    (h_kind : one.kind ≠ NodeKind.text)
    (hs : join_node s (p0 ++ [j + 1]) = some s2) :
    s2.selection = s.selection := by
  have h1 : (p0 ++ [j + 1]).getLast? = some (j + 1) := by simp
  have h2 : (p0 ++ [j + 1]).dropLast = p0 := by simp
  cases htwo : assertPath s.document (p0 ++ [j + 1]) with
  | none =>
    simp only [join_node, h1, h2, bind, Option.bind, Nat.add_sub_cancel,
      if_neg (Nat.succ_ne_zero j), h_one, htwo] at hs
    cases hs
  | some two =>
    cases hgp : getParent s.document one.key with
    | none =>
      simp only [join_node, h1, h2, bind, Option.bind, Nat.add_sub_cancel,
        if_neg (Nat.succ_ne_zero j), h_one, htwo, hgp] at hs
      cases hs
    | some parent =>
      cases hj : parent.joinNode (indexOfNode parent.children one)
          (indexOfNode parent.children two) with
      | none =>
        simp only [join_node, h1, h2, bind, Option.bind, Nat.add_sub_cancel,
          if_neg (Nat.succ_ne_zero j), h_one, htwo, hgp, hj] at hs
        cases hs
      | some joined =>
        simp only [join_node, h1, h2, bind, Option.bind, Nat.add_sub_cancel,
          if_neg (Nat.succ_ne_zero j), h_one, htwo, hgp, hj, Option.some.injEq] at hs
        subst hs
        simp only [if_neg h_kind]

theorem join_node_container_keeps_selection_witness :
    (assertPath (Node.container .document 0 ""
        [Node.container .block 1 "p" [Node.text 3 []], Node.container .block 2 "p" [Node.text 4 []]]) [0]
        = some (Node.container .block 1 "p" [Node.text 3 []])) ∧
    ((Node.container .block 1 "p" [Node.text 3 []]).kind ≠ NodeKind.text) ∧
    (join_node ⟨Node.container .document 0 ""
        [Node.container .block 1 "p" [Node.text 3 []], Node.container .block 2 "p" [Node.text 4 []]],
        ⟨some 2, 0, some 4, 0, false⟩⟩ [0 + 1]
      = some ⟨Node.container .document 0 ""
          [Node.container .block 1 "p" [Node.text 3 [], Node.text 4 []]],
          ⟨some 2, 0, some 4, 0, false⟩⟩) ∧
    ((⟨Node.container .document 0 ""
          [Node.container .block 1 "p" [Node.text 3 [], Node.text 4 []]],
          ⟨some 2, 0, some 4, 0, false⟩⟩ : State).selection
      = (⟨some 2, 0, some 4, 0, false⟩ : Selection)) :=
  ⟨by decide, by decide, by decide,
    join_node_container_keeps_selection
      ⟨Node.container .document 0 ""
        [Node.container .block 1 "p" [Node.text 3 []], Node.container .block 2 "p" [Node.text 4 []]],
        ⟨some 2, 0, some 4, 0, false⟩⟩
      [] 0 (Node.container .block 1 "p" [Node.text 3 []])
      ⟨Node.container .document 0 ""
          [Node.container .block 1 "p" [Node.text 3 [], Node.text 4 []]],
          ⟨some 2, 0, some 4, 0, false⟩⟩
      (by decide) (by decide) (by decide)⟩


set_option maxHeartbeats 2000000 in
/-- C2 counterexample: splitting down from text 3 (offset 1) with named
ancestor 2, the node named by `key` is itself split — its parent (key 1)
ends up with two children — contradicting "up to but NOT including the
node named by key", under which key 1 would keep its single child. -/
theorem splitDescendantsByKey_includes_named_cex :
    ((splitDescendantsByKey ⟨⟨Node.container .document 0 ""
        [Node.container .block 1 "a" [Node.container .block 2 "b"
          [Node.text 3 [⟨'x', []⟩, ⟨'y', []⟩], Node.text 4 [⟨'z', []⟩]]]],
        ⟨none, 0, none, 0, false⟩⟩, 100, []⟩ 2 3 1 true).map
        (fun t => (getNode t.state.document 1).map (fun n => n.children.length)))
      = some (some 2) ∧
    ((splitDescendantsByKey ⟨⟨Node.container .document 0 ""
        [Node.container .block 1 "a" [Node.container .block 2 "b"
          [Node.text 3 [⟨'x', []⟩, ⟨'y', []⟩], Node.text 4 [⟨'z', []⟩]]]],
        ⟨none, 0, none, 0, false⟩⟩, 100, []⟩ 2 3 1 true).map
        (fun t => (getNode t.state.document 1).map (fun n => n.children.length)))
      ≠ some (some 1) := by
  constructor
  · decide
  · decide

theorem dropWhileHead : ∀ (l : List Node) (p : Node → Bool) (b : Node) (bs : List Node),
    l.dropWhile p = b :: bs → p b = false := by
  intro l
  induction l with
  | nil => intro p b bs h; cases h
  | cons x xs ih =>
    intro p b bs h
    simp only [List.dropWhile_cons] at h
    cases hpx : p x with
    | true =>
      rw [hpx, if_pos rfl] at h
      exact ih p b bs h
    | false =>
      rw [hpx, if_neg (by simp)] at h
      cases h
      exact hpx

theorem splitDescLoop_states : ∀ (nodes : List Node) (previous : Option Node) (t t2 : TState)
    (off : Nat), splitDescLoop off nodes previous t = some t2 →
    ∃ ts : List TState,
      ts.length = nodes.length + 1 ∧
      ts.head? = some t ∧
      ts.getLast? = some t2 ∧
      ∀ i, i < nodes.length →
        ∃ n pos ti ti1,
          nodes[i]? = some n ∧
          (derivedPositions off nodes previous)[i]? = some pos ∧
          ts[i]? = some ti ∧ ts[i + 1]? = some ti1 ∧
          splitNodeByKey ti n.key pos false = some ti1 := by
  intro nodes
  induction nodes with
  | nil =>
    intro previous t t2 off h
    simp only [splitDescLoop, Option.some.injEq] at h
    subst h
    refine ⟨[t], rfl, rfl, by simp, ?_⟩
    intro i hi
    exact absurd hi (by simp)
  | cons n rest ih =>
    intro previous t t2 off h
    obtain ⟨idx, he, hdp⟩ : ∃ idx, splitDescLoop off (n :: rest) previous t
          = Option.bind (splitNodeByKey t n.key idx false)
              (fun t1 => splitDescLoop off rest (some n) t1) ∧
          derivedPositions off (n :: rest) previous
            = idx :: derivedPositions off rest (some n) := by
      cases previous with
      | none => exact ⟨off, rfl, rfl⟩
      | some p => exact ⟨indexOfNode n.children p + 1, rfl, rfl⟩
    rw [he] at h
    cases hs1 : splitNodeByKey t n.key idx false with
    | none =>
      rw [hs1] at h
      simp only [Option.bind] at h
      cases h
    | some t1 =>
      rw [hs1] at h
      simp only [Option.bind] at h
      obtain ⟨ts1, hlen, hhead, hlast, hstep⟩ := ih (some n) t1 t2 off h
      refine ⟨t :: ts1, by simp [List.length_cons, hlen], rfl, ?_, ?_⟩
      · cases ts1 with
        | nil => simp at hlen
        | cons a as =>
          rw [List.getLast?_cons_cons]
          exact hlast
      · intro i hi
        cases i with
        | zero =>
          refine ⟨n, idx, t, t1, by simp, ?_, by simp, ?_, hs1⟩
          · rw [hdp]
            simp
          · cases ts1 with
            | nil => cases hhead
            | cons a as =>
              simp only [List.head?_cons, Option.some.injEq] at hhead
              subst hhead
              simp
        | succ j =>
          have hj : j < rest.length := by
            simp only [List.length_cons] at hi
            omega
          obtain ⟨n2, pos2, ti, ti1, ha1, ha2, ha3, ha4, ha5⟩ := hstep j hj
          exact ⟨n2, pos2, ti, ti1, by simpa [List.getElem?_cons_succ] using ha1,
            by rw [hdp]; simpa [List.getElem?_cons_succ] using ha2,
            by simpa [List.getElem?_cons_succ] using ha3,
            by simpa [List.getElem?_cons_succ] using ha4, ha5⟩

/-- C2 (amended): splitDescendantsByKey(key, textKey, textOffset) with
key ≠ textKey resolves the chain made of the text node followed by the
ancestors from the named node down (reversed) — a chain that includes
the node named by `key` itself, as its last element whenever `key` names
an ancestor — and splits every chain node in order by one
`splitNodeByKey` at the derived index (the text offset first, then one
past the previous chain node's index among the stale children), every
intermediate split with normalization suppressed, finally recording
exactly one normalization, at the parent of the named node resolved in
the original document. -/
theorem splitDescendantsByKey_splits_chain
    (t t2 : TState) (key textKey off : Nat)
    (hne : key ≠ textKey)
    (h_run : splitDescendantsByKey t key textKey off true = some t2) :
    ∃ text ancs parent,
      getNode t.state.document textKey = some text ∧
      getAncestors t.state.document textKey = some ancs ∧
      getParent t.state.document key = some parent ∧
      (∃ ts : List TState,
        ts.length = (text :: (ancs.dropWhile (fun a => a.key != key)).reverse).length + 1 ∧
        ts.head? = some t ∧
        (∃ tEnd, ts.getLast? = some tEnd ∧ t2 = normalizeNodeByKey tEnd parent.key) ∧
        ∀ i, i < (text :: (ancs.dropWhile (fun a => a.key != key)).reverse).length →
          ∃ n pos ti ti1,
            (text :: (ancs.dropWhile (fun a => a.key != key)).reverse)[i]? = some n ∧
            (derivedPositions off
              (text :: (ancs.dropWhile (fun a => a.key != key)).reverse) none)[i]? = some pos ∧
            ts[i]? = some ti ∧ ts[i + 1]? = some ti1 ∧
            splitNodeByKey ti n.key pos false = some ti1) ∧
      ((∃ a ∈ ancs, a.key = key) →
        ∃ named, (text :: (ancs.dropWhile (fun a => a.key != key)).reverse).getLast?
            = some named ∧ named.key = key) := by
  cases hgn : getNode t.state.document textKey with
  | none =>
    simp only [splitDescendantsByKey, if_neg hne, bind, Option.bind, hgn] at h_run
    cases h_run
  | some text =>
    cases ha : getAncestors t.state.document textKey with
    | none =>
      simp only [splitDescendantsByKey, if_neg hne, bind, Option.bind, hgn, ha] at h_run
      cases h_run
    | some ancs =>
      cases hloop : splitDescLoop off
          (text :: (ancs.dropWhile (fun a => a.key != key)).reverse) none t with
      | none =>
        simp only [splitDescendantsByKey, if_neg hne, bind, Option.bind, hgn, ha, hloop]
          at h_run
        cases h_run
      | some t1 =>
        cases hp : getParent t.state.document key with
        | none =>
          simp only [splitDescendantsByKey, if_neg hne, bind, Option.bind, hgn, ha, hloop,
            eq_self_iff_true, if_true, hp] at h_run
          cases h_run
        | some parent =>
          simp only [splitDescendantsByKey, if_neg hne, bind, Option.bind, hgn, ha, hloop,
            eq_self_iff_true, if_true, hp, Option.some.injEq] at h_run
          subst h_run
          obtain ⟨ts, hlen, hhead, hlast, hstep⟩ := splitDescLoop_states
            (text :: (ancs.dropWhile (fun a => a.key != key)).reverse) none t t1 off hloop
          refine ⟨text, ancs, parent, rfl, rfl, rfl, ⟨ts, hlen, hhead, ⟨t1, hlast, rfl⟩, hstep⟩, ?_⟩
          rintro ⟨a, hamem, hakey⟩
          cases hdw : ancs.dropWhile (fun x => x.key != key) with
          | nil =>
            exfalso
            rw [List.dropWhile_eq_nil_iff] at hdw
            have hcontr := hdw a hamem
            simp [hakey] at hcontr
          | cons b bs =>
            have hb := dropWhileHead ancs (fun x => x.key != key) b bs hdw
            have hbk : b.key = key := by simpa using hb
            refine ⟨b, ?_, hbk⟩
            rw [List.reverse_cons, ← List.cons_append]
            exact List.getLast?_concat _

set_option maxHeartbeats 2000000 in
theorem splitDescendantsByKey_splits_chain_witness :
    ((2 : Nat) ≠ 3) ∧
    (splitDescendantsByKey (⟨⟨Node.container .document 0 "" [Node.container .block 1 "a" [Node.container .block 2 "b" [Node.text 3 [⟨'x', []⟩, ⟨'y', []⟩], Node.text 4 [⟨'z', []⟩]]]], ⟨none, 0, none, 0, false⟩⟩, 100, []⟩ : TState) 2 3 1 true = some (⟨⟨Node.container .document 0 "" [Node.container .block 1 "a" [Node.container .block 2 "b" [Node.text 3 [⟨'x', []⟩]], Node.container .block 101 "b" [Node.text 100 [⟨'y', []⟩], Node.text 4 [⟨'z', []⟩]]]], ⟨none, 0, none, 0, false⟩⟩, 102, [Event.applyOp (Op.split_node [0, 0, 0] 1 100), Event.applyOp (Op.split_node [0, 0] 1 101), Event.normalizeKey 1]⟩ : TState)) ∧
    (∃ text ancs parent,
      getNode ((⟨⟨Node.container .document 0 "" [Node.container .block 1 "a" [Node.container .block 2 "b" [Node.text 3 [⟨'x', []⟩, ⟨'y', []⟩], Node.text 4 [⟨'z', []⟩]]]], ⟨none, 0, none, 0, false⟩⟩, 100, []⟩ : TState)).state.document 3 = some text ∧
      getAncestors ((⟨⟨Node.container .document 0 "" [Node.container .block 1 "a" [Node.container .block 2 "b" [Node.text 3 [⟨'x', []⟩, ⟨'y', []⟩], Node.text 4 [⟨'z', []⟩]]]], ⟨none, 0, none, 0, false⟩⟩, 100, []⟩ : TState)).state.document 3 = some ancs ∧
      getParent ((⟨⟨Node.container .document 0 "" [Node.container .block 1 "a" [Node.container .block 2 "b" [Node.text 3 [⟨'x', []⟩, ⟨'y', []⟩], Node.text 4 [⟨'z', []⟩]]]], ⟨none, 0, none, 0, false⟩⟩, 100, []⟩ : TState)).state.document 2 = some parent ∧
      (∃ ts : List TState,
        ts.length = (text :: (ancs.dropWhile (fun a => a.key != 2)).reverse).length + 1 ∧
        ts.head? = some (⟨⟨Node.container .document 0 "" [Node.container .block 1 "a" [Node.container .block 2 "b" [Node.text 3 [⟨'x', []⟩, ⟨'y', []⟩], Node.text 4 [⟨'z', []⟩]]]], ⟨none, 0, none, 0, false⟩⟩, 100, []⟩ : TState) ∧
        (∃ tEnd, ts.getLast? = some tEnd ∧ (⟨⟨Node.container .document 0 "" [Node.container .block 1 "a" [Node.container .block 2 "b" [Node.text 3 [⟨'x', []⟩]], Node.container .block 101 "b" [Node.text 100 [⟨'y', []⟩], Node.text 4 [⟨'z', []⟩]]]], ⟨none, 0, none, 0, false⟩⟩, 102, [Event.applyOp (Op.split_node [0, 0, 0] 1 100), Event.applyOp (Op.split_node [0, 0] 1 101), Event.normalizeKey 1]⟩ : TState) = normalizeNodeByKey tEnd parent.key) ∧
        ∀ i, i < (text :: (ancs.dropWhile (fun a => a.key != 2)).reverse).length →
          ∃ n pos ti ti1,
            (text :: (ancs.dropWhile (fun a => a.key != 2)).reverse)[i]? = some n ∧
            (derivedPositions 1
              (text :: (ancs.dropWhile (fun a => a.key != 2)).reverse) none)[i]? = some pos ∧
            ts[i]? = some ti ∧ ts[i + 1]? = some ti1 ∧
            splitNodeByKey ti n.key pos false = some ti1) ∧
      ((∃ a ∈ ancs, a.key = 2) →
        ∃ named, (text :: (ancs.dropWhile (fun a => a.key != 2)).reverse).getLast?
            = some named ∧ named.key = 2)) :=
  ⟨by decide, by decide,
    splitDescendantsByKey_splits_chain (⟨⟨Node.container .document 0 "" [Node.container .block 1 "a" [Node.container .block 2 "b" [Node.text 3 [⟨'x', []⟩, ⟨'y', []⟩], Node.text 4 [⟨'z', []⟩]]]], ⟨none, 0, none, 0, false⟩⟩, 100, []⟩ : TState) (⟨⟨Node.container .document 0 "" [Node.container .block 1 "a" [Node.container .block 2 "b" [Node.text 3 [⟨'x', []⟩]], Node.container .block 101 "b" [Node.text 100 [⟨'y', []⟩], Node.text 4 [⟨'z', []⟩]]]], ⟨none, 0, none, 0, false⟩⟩, 102, [Event.applyOp (Op.split_node [0, 0, 0] 1 100), Event.applyOp (Op.split_node [0, 0] 1 101), Event.normalizeKey 1]⟩ : TState) 2 3 1 (by decide) (by decide)⟩




theorem optBindSomeEq {α β : Type} (a : α) (f : α → Option β) : Option.bind (some a) f = f a :=
  rfl

theorem listDecomp {α : Type} : ∀ (l : List α) (i : Nat) (c : α), l[i]? = some c →
    l = l.take i ++ c :: l.drop (i + 1) := by
  intro l
  induction l with
  | nil => intro i c h; cases h
  | cons x xs ih =>
    intro i c h
    cases i with
    | zero => simp_all
    | succ j =>
      simp only [List.getElem?_cons_succ] at h
      simp only [List.take_succ_cons, List.drop_succ_cons, List.cons_append]
      exact congrArg (fun l => x :: l) (ih j c h)

theorem setDecomp {α : Type} : ∀ (l : List α) (i : Nat) (c x : α), l[i]? = some c →
    l.set i x = l.take i ++ x :: l.drop (i + 1) := by
  intro l
  induction l with
  | nil => intro i c x h; cases h
  | cons y ys ih =>
    intro i c x h
    cases i with
    | zero => simp_all
    | succ j =>
      simp only [List.getElem?_cons_succ] at h
      simp only [List.set_cons_succ, List.take_succ_cons, List.drop_succ_cons, List.cons_append]
      exact congrArg (fun l => y :: l) (ih j c x h)

theorem key_mem_allKeysN2 (n : Node) : n.key ∈ allKeysN n := by
  cases n <;> simp [allKeysN, Node.key]

theorem allKeysF_cons (n : Node) (rest : List Node) :
    allKeysF (n :: rest) = allKeysN n ++ allKeysF rest := rfl

theorem allKeysF_append : ∀ (l1 l2 : List Node),
    allKeysF (l1 ++ l2) = allKeysF l1 ++ allKeysF l2 := by
  intro l1 l2
  induction l1 with
  | nil => rfl
  | cons n rest ih => simp [allKeysF_cons, ih]

theorem getTextsL_cons (n : Node) (rest : List Node) :
    getTextsL (n :: rest) = getTexts n ++ getTextsL rest := rfl

theorem getTextsL_append : ∀ (l1 l2 : List Node),
    getTextsL (l1 ++ l2) = getTextsL l1 ++ getTextsL l2 := by
  intro l1 l2
  induction l1 with
  | nil => rfl
  | cons n rest ih => simp [getTextsL_cons, ih]

theorem mem_allKeysF_of_mem : ∀ (ns : List Node) (c : Node), c ∈ ns →
    ∀ x, x ∈ allKeysN c → x ∈ allKeysF ns := by
  intro ns
  induction ns with
  | nil => intro c h; cases h
  | cons n rest ih =>
    intro c h x hx
    rw [allKeysF_cons]
    rcases List.mem_cons.mp h with h1 | h1
    · subst h1; exact List.mem_append_left _ hx
    · exact List.mem_append_right _ (ih c h1 x hx)

/-- Keys of the texts of a subtree are keys of the subtree. -/
theorem textKey_mem :
    (∀ n : Node, ∀ t ∈ getTexts n, t.key ∈ allKeysN n) ∧
    (∀ ns : List Node, ∀ t ∈ getTextsL ns, t.key ∈ allKeysF ns) := by
  constructor
  · exact nodeInd (fun n => ∀ t ∈ getTexts n, t.key ∈ allKeysN n)
      (fun ns => ∀ t ∈ getTextsL ns, t.key ∈ allKeysF ns)
      (by intro k cs t ht; simp [getTexts] at ht; simp [ht, allKeysN, Node.key])
      (by intro kd k ty ns ih t ht
          simp only [getTexts] at ht
          exact List.mem_cons_of_mem _ (ih t ht))
      (by intro t ht; cases ht)
      (by intro n rest hn hrest t ht
          rw [getTextsL_cons] at ht
          rw [allKeysF_cons]
          rcases List.mem_append.mp ht with h1 | h1
          · exact List.mem_append_left _ (hn t h1)
          · exact List.mem_append_right _ (hrest t h1))
  · exact forestInd (fun n => ∀ t ∈ getTexts n, t.key ∈ allKeysN n)
      (fun ns => ∀ t ∈ getTextsL ns, t.key ∈ allKeysF ns)
      (by intro k cs t ht; simp [getTexts] at ht; simp [ht, allKeysN, Node.key])
      (by intro kd k ty ns ih t ht
          simp only [getTexts] at ht
          exact List.mem_cons_of_mem _ (ih t ht))
      (by intro t ht; cases ht)
      (by intro n rest hn hrest t ht
          rw [getTextsL_cons] at ht
          rw [allKeysF_cons]
          rcases List.mem_append.mp ht with h1 | h1
          · exact List.mem_append_left _ (hn t h1)
          · exact List.mem_append_right _ (hrest t h1))

/-- A key absent from a subtree is not found by the path search. -/
theorem findPath_none :
    (∀ n : Node, ∀ k, k ∉ allKeysN n → findPathIn k n = none) ∧
    (∀ ns : List Node, ∀ k j, k ∉ allKeysF ns → findPathFrom k j ns = none) := by
  constructor
  · exact nodeInd (fun n => ∀ k, k ∉ allKeysN n → findPathIn k n = none)
      (fun ns => ∀ k j, k ∉ allKeysF ns → findPathFrom k j ns = none)
      (by intro k cs k2 h; rfl)
      (by intro kd k ty ns ih k2 h
          simp only [allKeysN, List.mem_cons, not_or] at h
          exact ih k2 0 h.2)
      (by intro k j h; rfl)
      (by intro n rest hn hrest k j h
          rw [allKeysF_cons] at h
          simp only [List.mem_append, not_or] at h
          have hk : ¬ (n.key = k) := fun he => h.1 (he ▸ key_mem_allKeysN2 n)
          simp only [findPathFrom, if_neg hk, hn k h.1, hrest k (j + 1) h.2])
  · exact forestInd (fun n => ∀ k, k ∉ allKeysN n → findPathIn k n = none)
      (fun ns => ∀ k j, k ∉ allKeysF ns → findPathFrom k j ns = none)
      (by intro k cs k2 h; rfl)
      (by intro kd k ty ns ih k2 h
          simp only [allKeysN, List.mem_cons, not_or] at h
          exact ih k2 0 h.2)
      (by intro k j h; rfl)
      (by intro n rest hn hrest k j h
          rw [allKeysF_cons] at h
          simp only [List.mem_append, not_or] at h
          have hk : ¬ (n.key = k) := fun he => h.1 (he ▸ key_mem_allKeysN2 n)
          simp only [findPathFrom, if_neg hk, hn k h.1, hrest k (j + 1) h.2])

theorem findPathFrom_ne_nil : ∀ (l : List Node) (k : Nat) (j : Nat) (p : List Nat),
    findPathFrom k j l = some p → p ≠ [] := by
  intro l
  induction l with
  | nil => intro k j p h; cases h
  | cons n rest ih =>
    intro k j p h
    simp only [findPathFrom] at h
    by_cases hk : n.key = k
    · rw [if_pos hk] at h
      cases h
      simp
    · rw [if_neg hk] at h
      cases hfi : findPathIn k n with
      | some q => rw [hfi] at h; cases h; simp
      | none => rw [hfi] at h; exact ih k (j + 1) p h


theorem getElemSet {α : Type} : ∀ (l : List α) (i : Nat) (c x : α), l[i]? = some c →
    (l.set i x)[i]? = some x := by
  intro l
  induction l with
  | nil => intro i c x h; cases h
  | cons y ys ih =>
    intro i c x h
    cases i with
    | zero => simp
    | succ j =>
      simp only [List.getElem?_cons_succ] at h
      simp only [List.set_cons_succ, List.getElem?_cons_succ]
      exact ih j c x h

theorem assertPath_append : ∀ (p q : List Nat) (n : Node),
    assertPath n (p ++ q) = (assertPath n p).bind (fun m => assertPath m q) := by
  intro p
  induction p with
  | nil => intro q n; rfl
  | cons i rest ih =>
    intro q n
    simp only [List.cons_append, assertPath]
    cases (Node.children n)[i]? with
    | none => rfl
    | some c => exact ih q c

theorem assertPath_key_mem : ∀ (p : List Nat) (n m : Node),
    assertPath n p = some m → m.key ∈ allKeysN n := by
  intro p
  induction p with
  | nil =>
    intro n m h
    simp only [assertPath, Option.some.injEq] at h
    subst h
    exact key_mem_allKeysN2 n
  | cons i rest ih =>
    intro n m h
    cases n with
    | text k cs => simp [assertPath, Node.children] at h
    | container kd k t ns =>
      simp only [assertPath, Node.children] at h
      cases hgi : ns[i]? with
      | none => rw [hgi] at h; cases h
      | some c =>
        rw [hgi] at h
        have hc : c ∈ ns := by
          rw [listDecomp ns i c hgi]
          simp
        simp only [allKeysN, List.mem_cons]
        exact Or.inr (mem_allKeysF_of_mem ns c hc m.key (ih c m h))

/-- The subtree at a path occupies one contiguous block of the key
enumeration and of the text enumeration, and replacing it substitutes
that block in both. -/
theorem subtree_decomp : ∀ (p : List Nat) (n old : Node), assertPath n p = some old →
    ∃ KB KA B A,
      allKeysN n = KB ++ (allKeysN old ++ KA) ∧
      getTexts n = B ++ (getTexts old ++ A) ∧
      (∀ t ∈ B, t.key ∈ KB) ∧ (∀ t ∈ A, t.key ∈ KA) ∧
      (p ≠ [] → KB ≠ []) ∧
      ∀ new : Node,
        allKeysN (setAtPath n p new) = KB ++ (allKeysN new ++ KA) ∧
        getTexts (setAtPath n p new) = B ++ (getTexts new ++ A) := by
  intro p
  induction p with
  | nil =>
    intro n old h
    simp only [assertPath, Option.some.injEq] at h
    subst h
    exact ⟨[], [], [], [], by simp, by simp, by simp, by simp, fun h => absurd rfl h,
      fun new => ⟨by simp [setAtPath], by simp [setAtPath]⟩⟩
  | cons i rest ih =>
    intro n old h
    cases n with
    | text k cs => simp [assertPath, Node.children] at h
    | container kd k t ns =>
      simp only [assertPath, Node.children] at h
      cases hgi : ns[i]? with
      | none => rw [hgi] at h; cases h
      | some c =>
        rw [hgi] at h
        obtain ⟨KB, KA, B, A, h1, h2, h3, h4, _, h5⟩ := ih c old h
        have hns := listDecomp ns i c hgi
        refine ⟨k :: (allKeysF (ns.take i) ++ KB), KA ++ allKeysF (ns.drop (i + 1)),
            getTextsL (ns.take i) ++ B, A ++ getTextsL (ns.drop (i + 1)), ?_, ?_, ?_, ?_,
            fun _ => by simp, ?_⟩
        · show k :: allKeysF ns = _
          conv_lhs => rw [hns]
          rw [allKeysF_append, allKeysF_cons, h1]
          simp [List.append_assoc]
        · show getTextsL ns = _
          conv_lhs => rw [hns]
          rw [getTextsL_append, getTextsL_cons, h2]
          simp [List.append_assoc]
        · intro tx htx
          rcases List.mem_append.mp htx with h6 | h6
          · have := textKey_mem.2 (ns.take i) tx h6
            simp only [List.mem_cons, List.mem_append]
            tauto
          · have := h3 tx h6
            simp only [List.mem_cons, List.mem_append]
            tauto
        · intro tx htx
          rcases List.mem_append.mp htx with h6 | h6
          · have := h4 tx h6
            simp only [List.mem_append]
            tauto
          · have := textKey_mem.2 (ns.drop (i + 1)) tx h6
            simp only [List.mem_append]
            tauto
        · intro new
          have hset : setAtPath (Node.container kd k t ns) (i :: rest) new
              = Node.container kd k t (ns.set i (setAtPath c rest new)) := by
            simp [setAtPath, hgi]
          have hsd := setDecomp ns i c (setAtPath c rest new) hgi
          constructor
          · rw [hset]
            show k :: allKeysF (ns.set i (setAtPath c rest new)) = _
            rw [hsd, allKeysF_append, allKeysF_cons, (h5 new).1]
            simp [List.append_assoc]
          · rw [hset]
            show getTextsL (ns.set i (setAtPath c rest new)) = _
            rw [hsd, getTextsL_append, getTextsL_cons, (h5 new).2]
            simp [List.append_assoc]

theorem assertPath_setAtPath_self : ∀ (p : List Nat) (n old new : Node),
    assertPath n p = some old → assertPath (setAtPath n p new) p = some new := by
  intro p
  induction p with
  | nil => intro n old new h; rfl
  | cons i rest ih =>
    intro n old new h
    cases n with
    | text k cs => simp [assertPath, Node.children] at h
    | container kd k t ns =>
      simp only [assertPath, Node.children] at h
      cases hgi : ns[i]? with
      | none => rw [hgi] at h; cases h
      | some c =>
        rw [hgi] at h
        have hset : setAtPath (Node.container kd k t ns) (i :: rest) new
            = Node.container kd k t (ns.set i (setAtPath c rest new)) := by
          simp [setAtPath, hgi]
        rw [hset]
        simp only [assertPath, Node.children, getElemSet ns i c (setAtPath c rest new) hgi]
        exact ih c old new h


theorem getElemLt {α : Type} : ∀ (l : List α) (i : Nat) (c : α), l[i]? = some c →
    i < l.length := by
  intro l
  induction l with
  | nil => intro i c h; cases h
  | cons y ys ih =>
    intro i c h
    cases i with
    | zero => simp
    | succ j =>
      simp only [List.getElem?_cons_succ] at h
      have := ih j c h
      simp only [List.length_cons]
      omega

theorem findPathFrom_append : ∀ (l1 l2 : List Node) (key j : Nat),
    key ∉ allKeysF l1 →
    findPathFrom key j (l1 ++ l2) = findPathFrom key (j + l1.length) l2 := by
  intro l1
  induction l1 with
  | nil => intro l2 key j h; simp [findPathFrom]
  | cons n rest ih =>
    intro l2 key j h
    rw [allKeysF_cons] at h
    simp only [List.mem_append, not_or] at h
    have hk : ¬ (n.key = key) := fun he => h.1 (he ▸ key_mem_allKeysN2 n)
    have hfin : findPathIn key n = none := findPath_none.1 n key h.1
    simp only [List.cons_append, findPathFrom, if_neg hk, hfin, List.append_eq]
    rw [ih l2 key (j + 1) h.2]
    congr 1
    simp only [List.length_cons]
    omega

/-- Under global key uniqueness, the path search finds a resolved node
exactly at its path. -/
theorem getPath_of_assertPath : ∀ (p : List Nat) (n m : Node),
    (allKeysN n).Nodup → assertPath n p = some m → getPath n m.key = some p := by
  intro p
  induction p with
  | nil =>
    intro n m hnodup h
    simp only [assertPath, Option.some.injEq] at h
    subst h
    simp [getPath]
  | cons i rest ih =>
    intro n m hnodup h
    cases n with
    | text k cs => simp [assertPath, Node.children] at h
    | container kd k t ns =>
      simp only [assertPath, Node.children] at h
      cases hgi : ns[i]? with
      | none => rw [hgi] at h; cases h
      | some c =>
        rw [hgi] at h
        have hcmem : c ∈ ns := by rw [listDecomp ns i c hgi]; simp
        have hmkc : m.key ∈ allKeysN c := assertPath_key_mem rest c m h
        have hncons := List.nodup_cons.mp hnodup
        have hkne : ¬ (k = m.key) :=
          fun he => hncons.1 (he ▸ mem_allKeysF_of_mem ns c hcmem m.key hmkc)
        have hdecF : allKeysF ns
            = allKeysF (ns.take i) ++ (allKeysN c ++ allKeysF (ns.drop (i + 1))) := by
          have := congrArg allKeysF (listDecomp ns i c hgi)
          rw [allKeysF_append, allKeysF_cons] at this
          exact this
        have hnodup2 : (allKeysF (ns.take i)
            ++ (allKeysN c ++ allKeysF (ns.drop (i + 1)))).Nodup := hdecF ▸ hncons.2
        have hdisj := List.disjoint_of_nodup_append hnodup2
        have hnotin : m.key ∉ allKeysF (ns.take i) :=
          fun hmem => hdisj hmem (List.mem_append_left _ hmkc)
        have hnodc : (allKeysN c).Nodup :=
          ((List.nodup_append.mp hnodup2).2.1).of_append_left
        have hIH := ih c m hnodc h
        have hlt : i < ns.length := getElemLt ns i c hgi
        show getPath (Node.container kd k t ns) m.key = some (i :: rest)
        have hrootkey : (Node.container kd k t ns).key = k := rfl
        rw [getPath, hrootkey, if_neg hkne]
        show findPathFrom m.key 0 ns = some (i :: rest)
        conv_lhs => rw [listDecomp ns i c hgi]
        rw [findPathFrom_append (ns.take i) (c :: ns.drop (i + 1)) m.key 0 hnotin]
        have hleni : (ns.take i).length = i := by
          simp [List.length_take]
          omega
        rw [hleni]
        simp only [Nat.zero_add]
        rw [getPath] at hIH
        by_cases hck : c.key = m.key
        · rw [if_pos hck] at hIH
          have hrest : rest = [] := by
            simp at hIH
            exact hIH
          subst hrest
          simp [findPathFrom, hck]
        · rw [if_neg hck] at hIH
          simp only [findPathFrom, if_neg hck, hIH]


theorem allKeysN_eq (n : Node) : allKeysN n = n.key :: allKeysF n.children := by
  cases n <;> rfl

theorem mergeProps_kind (nd : Node) (q : Props) : (nd.mergeProps q).kind = nd.kind := by
  cases nd with
  | text k cs => rfl
  | container kd k t ns => cases kd <;> rfl

theorem mergeProps_key (nd : Node) (q : Props)
    (h : q.key = none ∨ q.key = some nd.key) : (nd.mergeProps q).key = nd.key := by
  cases nd <;> rcases h with h | h <;> simp [Node.mergeProps, Node.key, h]

theorem mergeProps_children (nd : Node) (q : Props)
    (h : q.nodes = none ∨ q.nodes = some nd.children) :
    (nd.mergeProps q).children = nd.children := by
  cases nd <;> rcases h with h | h <;> simp_all [Node.mergeProps, Node.children]

theorem mergeProps_nodeType (nd : Node) (q : Props) :
    (nd.mergeProps q).nodeType = nd.nodeType.map (fun t => q.typ.getD t) := by
  cases nd <;> rfl

theorem cleanNodeProps_key (nd : Node) (props : Props) :
    (cleanNodeProps nd props).key = none ∨ (cleanNodeProps nd props).key = some nd.key := by
  rcases props with ⟨pk, pn, pt⟩
  rcases pk with _ | x
  · left
    simp [cleanNodeProps, apply_ite Props.key]
  · by_cases hx : x = nd.key
    · subst hx
      right
      simp [cleanNodeProps, apply_ite Props.key]
    · left
      simp [cleanNodeProps, apply_ite Props.key, hx]

theorem cleanNodeProps_nodes (nd : Node) (props : Props) :
    (cleanNodeProps nd props).nodes = none
      ∨ (cleanNodeProps nd props).nodes = some nd.children := by
  rcases props with ⟨pk, pn, pt⟩
  rcases pn with _ | x
  · left
    simp [cleanNodeProps, apply_ite Props.nodes]
  · by_cases hx : x = nd.children
    · subst hx
      right
      simp [cleanNodeProps, apply_ite Props.nodes]
    · left
      simp [cleanNodeProps, apply_ite Props.nodes, hx]

theorem cleanNodeProps_typ (nd : Node) (props : Props) :
    (cleanNodeProps nd props).typ = props.typ := by
  rcases props with ⟨pk, pn, pt⟩
  simp [cleanNodeProps, apply_ite Props.typ]

/-- C9: set_node shallow-merges the properties but never changes the
node's child collection or its key (attempts to do so are dropped),
while the rest of the merge (the node type) still proceeds; the updated
node replaces the original in the document. -/
theorem set_node_preserves_structure
    (s : State) (path : List Nat) (props : Props) (nd : Node)
    (h_uniq : (allKeysN s.document).Nodup)
    (h_nd : assertPath s.document path = some nd)
    (h_root : path = [] → nd.kind = NodeKind.document) :
    ∃ s2 nd2, set_node s path props = some s2 ∧
      getNode s2.document nd.key = some nd2 ∧
      nd2.key = nd.key ∧
      nd2.children = nd.children ∧
      nd2.kind = nd.kind ∧
      nd2.nodeType = nd.nodeType.map (fun t => props.typ.getD t) := by
  have hkey : (nd.mergeProps (cleanNodeProps nd props)).key = nd.key :=
    mergeProps_key nd _ (cleanNodeProps_key nd props)
  have hch : (nd.mergeProps (cleanNodeProps nd props)).children = nd.children :=
    mergeProps_children nd _ (cleanNodeProps_nodes nd props)
  have hkind : (nd.mergeProps (cleanNodeProps nd props)).kind = nd.kind :=
    mergeProps_kind nd _
  have htyp : (nd.mergeProps (cleanNodeProps nd props)).nodeType
      = nd.nodeType.map (fun t => props.typ.getD t) := by
    rw [mergeProps_nodeType, cleanNodeProps_typ]
  have hrun : set_node s path props
      = some { s with document :=
          if (nd.mergeProps (cleanNodeProps nd props)).kind = NodeKind.document
          then nd.mergeProps (cleanNodeProps nd props)
          else updateDescendant s.document (nd.mergeProps (cleanNodeProps nd props)) } := by
    simp only [set_node, h_nd, bind, Option.bind]
  by_cases hdoc : (nd.mergeProps (cleanNodeProps nd props)).kind = NodeKind.document
  · refine ⟨_, nd.mergeProps (cleanNodeProps nd props), hrun, ?_, hkey, hch, hkind, htyp⟩
    rw [if_pos hdoc]
    rw [getNode, getPath, hkey, if_pos rfl]
    rfl
  · refine ⟨_, nd.mergeProps (cleanNodeProps nd props), hrun, ?_, hkey, hch, hkind, htyp⟩
    rw [if_neg hdoc]
    have hpne : path ≠ [] := fun he => hdoc (by rw [hkind]; exact h_root he)
    have hgp : getPath s.document nd.key = some path :=
      getPath_of_assertPath path s.document nd h_uniq h_nd
    have hupd : updateDescendant s.document (nd.mergeProps (cleanNodeProps nd props))
        = setAtPath s.document path (nd.mergeProps (cleanNodeProps nd props)) := by
      rw [updateDescendant, hkey, hgp]
      cases path with
      | nil => exact absurd rfl hpne
      | cons a b => rfl
    obtain ⟨KB, KA, B, A, hK, hT, _, _, _, hrepl⟩ := subtree_decomp path s.document nd h_nd
    have hKeq : allKeysN (nd.mergeProps (cleanNodeProps nd props)) = allKeysN nd := by
      rw [allKeysN_eq (nd.mergeProps (cleanNodeProps nd props)), allKeysN_eq nd, hkey, hch]
    have hnodup2 : (allKeysN (setAtPath s.document path
        (nd.mergeProps (cleanNodeProps nd props)))).Nodup := by
      rw [(hrepl (nd.mergeProps (cleanNodeProps nd props))).1, hKeq, ← hK]
      exact h_uniq
    have hasrt : assertPath (setAtPath s.document path (nd.mergeProps (cleanNodeProps nd props)))
        path = some (nd.mergeProps (cleanNodeProps nd props)) :=
      assertPath_setAtPath_self path s.document nd _ h_nd
    have hgp2 : getPath (setAtPath s.document path (nd.mergeProps (cleanNodeProps nd props)))
        (nd.mergeProps (cleanNodeProps nd props)).key = some path :=
      getPath_of_assertPath path _ _ hnodup2 hasrt
    rw [hupd, getNode, ← hkey, hgp2]
    exact hasrt

theorem set_node_preserves_structure_witness :
    ((allKeysN (Node.container .document 0 "" [Node.container .block 1 "p" [Node.text 2 []]])).Nodup) ∧
    (assertPath (Node.container .document 0 "" [Node.container .block 1 "p" [Node.text 2 []]]) [0]
      = some (Node.container .block 1 "p" [Node.text 2 []])) ∧
    (([0] : List Nat) = [] → (Node.container .block 1 "p" [Node.text 2 []]).kind = NodeKind.document) ∧
    (∃ s2 nd2, set_node ⟨Node.container .document 0 "" [Node.container .block 1 "p" [Node.text 2 []]],
        ⟨none, 0, none, 0, false⟩⟩ [0] ⟨some 9, some [], some "q"⟩ = some s2 ∧
      getNode s2.document (Node.container .block 1 "p" [Node.text 2 []]).key = some nd2 ∧
      nd2.key = (Node.container .block 1 "p" [Node.text 2 []]).key ∧
      nd2.children = (Node.container .block 1 "p" [Node.text 2 []]).children ∧
      nd2.kind = (Node.container .block 1 "p" [Node.text 2 []]).kind ∧
      nd2.nodeType = (Node.container .block 1 "p" [Node.text 2 []]).nodeType.map
        (fun t => (some "q").getD t)) :=
  ⟨by decide, by decide, by decide,
    set_node_preserves_structure
      ⟨Node.container .document 0 "" [Node.container .block 1 "p" [Node.text 2 []]],
        ⟨none, 0, none, 0, false⟩⟩ [0] ⟨some 9, some [], some "q"⟩
      (Node.container .block 1 "p" [Node.text 2 []])
      (by decide) (by decide) (by decide)⟩


theorem getLastMem {α : Type} : ∀ (l : List α) (x : α), l.getLast? = some x → x ∈ l := by
  intro l
  induction l with
  | nil => intro x h; cases h
  | cons y ys ih =>
    intro x h
    cases ys with
    | nil =>
      simp only [List.getLast?_singleton, Option.some.injEq] at h
      simp [h]
    | cons z zs =>
      rw [List.getLast?_cons_cons] at h
      exact List.mem_cons_of_mem y (ih x h)

theorem prevText_mem (doc : Node) (k : Nat) (pt : Node)
    (h : getPreviousText doc k = some pt) : pt ∈ getTexts doc := by
  rw [getPreviousText] at h
  exact (List.takeWhile_sublist _).subset (getLastMem _ pt h)

/-- When a text key has neither a previous nor a next text, its text is
the only text of the document. -/
theorem onlyText (doc : Node) (k : Nat) (t : Node)
    (ht : t ∈ getTexts doc) (_hk : t.key = k)
    (hprev : getPreviousText doc k = none)
    (hnext : getNextText doc k = none) : getTexts doc = [t] := by
  rw [getPreviousText] at hprev
  rw [getNextText] at hnext
  cases hL : getTexts doc with
  | nil => rw [hL] at ht; cases ht
  | cons t0 rest =>
    rw [hL] at hprev hnext ht
    have ht0 : (t0.key != k) = false := by
      by_contra hcon
      have hcon2 : (t0.key != k) = true := by
        cases hx : (t0.key != k)
        · exact absurd hx hcon
        · rfl
      simp only [List.takeWhile_cons, hcon2, if_true] at hprev
      simp at hprev
    simp [List.dropWhile_cons, ht0] at hnext
    cases rest with
    | cons r rs => simp at hnext
    | nil =>
      rcases List.mem_singleton.mp ht with h1
      rw [h1]


/-- C8: when remove_node deletes a subtree containing a selection
endpoint, that endpoint is relocated to the nearest preceding text node
in document order at its end; with no preceding text, to the nearest
following text node at offset 0; and with no other text node in the
document at all, the selection is fully deselected. -/
theorem remove_node_relocates_selection
    (s : State) (path : List Nat) (nd : Node) (s2 : State) (sk ek : Nat) (tS tE : Node)
    (hset : s.selection.isSet = true)
    (hsk : s.selection.startKey = some sk)
    (hek : s.selection.endKey = some ek)
    (htS : tS ∈ getTexts s.document) (hkS : tS.key = sk)
    (htE : tE ∈ getTexts s.document) (hkE : tE.key = ek)
    (hnd : assertPath s.document path = some nd)
    (hs : remove_node s path = some s2) :
    (hasKey nd sk = true →
      (∀ pt, getPreviousText s.document sk = some pt →
        s2.selection.startKey = some pt.key ∧ s2.selection.startOffset = (pt.textLength : Int)) ∧
      (getPreviousText s.document sk = none →
        ∀ nt, getNextText s.document sk = some nt →
          s2.selection.startKey = some nt.key ∧ s2.selection.startOffset = 0) ∧
      (getPreviousText s.document sk = none → getNextText s.document sk = none →
        s2.selection.anchorKey = none ∧ s2.selection.focusKey = none ∧
          s2.selection.isSet = false)) ∧
    (hasKey nd ek = true →
      (∀ pt, getPreviousText s.document ek = some pt →
        s2.selection.endKey = some pt.key ∧ s2.selection.endOffset = (pt.textLength : Int)) ∧
      (getPreviousText s.document ek = none →
        ∀ nt, getNextText s.document ek = some nt →
          s2.selection.endKey = some nt.key ∧ s2.selection.endOffset = 0) ∧
      (getPreviousText s.document ek = none → getNextText s.document ek = none →
        s2.selection.anchorKey = none ∧ s2.selection.focusKey = none ∧
          s2.selection.isSet = false)) := by
  cases hgp : getParent s.document nd.key with
  | none =>
    simp only [remove_node, hnd, bind, Option.bind, hgp] at hs
    cases hs
  | some parent =>
    cases hrm : parent.removeNode (indexOfNode parent.children nd) with
    | none =>
      simp only [remove_node, hnd, bind, Option.bind, hgp, hrm] at hs
      cases hs
    | some parent2 =>
      simp only [remove_node, hnd, bind, Option.bind, hgp, hrm, Option.some.injEq] at hs
      subst hs
      simp only [hset, if_true, hsk, hek]
      constructor
      · intro hasS
        refine ⟨?_, ?_, ?_⟩
        · intro pt hpt
          simp only [hasS, if_true, hpt]
          by_cases hasE : hasKey nd ek = true
          · simp only [hasE, if_true]
            cases hpe : getPreviousText s.document ek with
            | some pe =>
              cases hib : s.selection.isBackward <;>
                simp [Selection.moveStartTo, Selection.moveEndTo, Selection.moveAnchorTo,
                  Selection.moveFocusTo, Selection.startKey, Selection.startOffset, hib]
            | none =>
              cases hne : getNextText s.document ek with
              | some ne =>
                cases hib : s.selection.isBackward <;>
                  simp [Selection.moveStartTo, Selection.moveEndTo, Selection.moveAnchorTo,
                    Selection.moveFocusTo, Selection.startKey, Selection.startOffset, hib]
              | none =>
                exfalso
                have hone := onlyText s.document ek tE htE hkE hpe hne
                have hptm := prevText_mem s.document sk pt hpt
                rw [hone] at hptm htS
                have h1 : pt = tE := List.mem_singleton.mp hptm
                have h2 : tS = tE := List.mem_singleton.mp htS
                have hkk : sk = ek := by rw [← hkS, h2, hkE]
                rw [hkk, hpe] at hpt
                cases hpt
          · simp only [Bool.not_eq_true] at hasE
            simp only [hasE]
            cases hib : s.selection.isBackward <;>
              simp [Selection.moveStartTo, Selection.moveEndTo, Selection.moveAnchorTo,
                Selection.moveFocusTo, Selection.startKey, Selection.startOffset, hib]
        · intro hps nt hnt
          simp only [hasS, if_true, hps, hnt]
          by_cases hasE : hasKey nd ek = true
          · simp only [hasE, if_true]
            cases hpe : getPreviousText s.document ek with
            | some pe =>
              cases hib : s.selection.isBackward <;>
                simp [Selection.moveStartTo, Selection.moveEndTo, Selection.moveAnchorTo,
                  Selection.moveFocusTo, Selection.startKey, Selection.startOffset, hib]
            | none =>
              cases hne : getNextText s.document ek with
              | some ne =>
                cases hib : s.selection.isBackward <;>
                  simp [Selection.moveStartTo, Selection.moveEndTo, Selection.moveAnchorTo,
                    Selection.moveFocusTo, Selection.startKey, Selection.startOffset, hib]
              | none =>
                exfalso
                have hone := onlyText s.document ek tE htE hkE hpe hne
                rw [hone] at htS
                have h2 : tS = tE := List.mem_singleton.mp htS
                have hkk : sk = ek := by rw [← hkS, h2, hkE]
                rw [hkk, hne] at hnt
                cases hnt
          · simp only [Bool.not_eq_true] at hasE
            simp only [hasE]
            cases hib : s.selection.isBackward <;>
              simp [Selection.moveStartTo, Selection.moveEndTo, Selection.moveAnchorTo,
                Selection.moveFocusTo, Selection.startKey, Selection.startOffset, hib]
        · intro hps hns
          simp only [hasS, if_true, hps, hns]
          have hone := onlyText s.document sk tS htS hkS hps hns
          have hES : tE = tS := by
            rw [hone] at htE
            exact List.mem_singleton.mp htE
          have hkk : ek = sk := by rw [← hkE, hES, hkS]
          have hasE : hasKey nd ek = true := by rw [hkk]; exact hasS
          simp only [hasE, if_true, hkk, hps, hns]
          simp [Selection.deselect, Selection.isSet]
      · intro hasE
        refine ⟨?_, ?_, ?_⟩
        · intro pt hpt
          simp only [hasE, if_true, hpt]
          cases hib : s.selection.isBackward <;>
            split_ifs <;>
            simp_all [Selection.moveStartTo, Selection.moveEndTo, Selection.moveAnchorTo,
              Selection.moveFocusTo, Selection.endKey, Selection.endOffset, Selection.deselect] <;>
            split_ifs <;>
            simp_all
        · intro hpe nt hnt
          simp only [hasE, if_true, hpe, hnt]
          cases hib : s.selection.isBackward <;>
            split_ifs <;>
            simp_all [Selection.moveStartTo, Selection.moveEndTo, Selection.moveAnchorTo,
              Selection.moveFocusTo, Selection.endKey, Selection.endOffset, Selection.deselect] <;>
            split_ifs <;>
            simp_all
        · intro hpe hne
          simp only [hasE, if_true, hpe, hne]
          simp [Selection.deselect, Selection.isSet]


theorem remove_node_relocates_selection_witness :
    ((⟨some 2, 0, some 2, 0, false⟩ : Selection).isSet = true) ∧
    ((⟨some 2, 0, some 2, 0, false⟩ : Selection).startKey = some 2) ∧
    ((⟨some 2, 0, some 2, 0, false⟩ : Selection).endKey = some 2) ∧
    (Node.text 2 [] ∈ getTexts (Node.container .document 0 ""
        [Node.container .block 1 "p" [Node.text 2 []]])) ∧
    ((Node.text 2 []).key = 2) ∧
    (assertPath (Node.container .document 0 "" [Node.container .block 1 "p" [Node.text 2 []]]) [0]
      = some (Node.container .block 1 "p" [Node.text 2 []])) ∧
    (remove_node ⟨Node.container .document 0 "" [Node.container .block 1 "p" [Node.text 2 []]],
        ⟨some 2, 0, some 2, 0, false⟩⟩ [0]
      = some ⟨Node.container .document 0 "" [], ⟨none, 0, none, 0, false⟩⟩) ∧
    ((hasKey (Node.container .block 1 "p" [Node.text 2 []]) 2 = true →
      (∀ pt, getPreviousText (Node.container .document 0 ""
          [Node.container .block 1 "p" [Node.text 2 []]]) 2 = some pt →
        (⟨Node.container .document 0 "" [], ⟨none, 0, none, 0, false⟩⟩ : State).selection.startKey
            = some pt.key ∧
        (⟨Node.container .document 0 "" [], ⟨none, 0, none, 0, false⟩⟩ : State).selection.startOffset
            = (pt.textLength : Int)) ∧
      (getPreviousText (Node.container .document 0 ""
          [Node.container .block 1 "p" [Node.text 2 []]]) 2 = none →
        ∀ nt, getNextText (Node.container .document 0 ""
            [Node.container .block 1 "p" [Node.text 2 []]]) 2 = some nt →
          (⟨Node.container .document 0 "" [], ⟨none, 0, none, 0, false⟩⟩ : State).selection.startKey
              = some nt.key ∧
          (⟨Node.container .document 0 "" [],
              ⟨none, 0, none, 0, false⟩⟩ : State).selection.startOffset = 0) ∧
      (getPreviousText (Node.container .document 0 ""
          [Node.container .block 1 "p" [Node.text 2 []]]) 2 = none →
        getNextText (Node.container .document 0 ""
          [Node.container .block 1 "p" [Node.text 2 []]]) 2 = none →
        (⟨Node.container .document 0 "" [], ⟨none, 0, none, 0, false⟩⟩ : State).selection.anchorKey
            = none ∧
        (⟨Node.container .document 0 "" [], ⟨none, 0, none, 0, false⟩⟩ : State).selection.focusKey
            = none ∧
        (⟨Node.container .document 0 "" [], ⟨none, 0, none, 0, false⟩⟩ : State).selection.isSet
            = false)) ∧
    (hasKey (Node.container .block 1 "p" [Node.text 2 []]) 2 = true →
      (∀ pt, getPreviousText (Node.container .document 0 ""
          [Node.container .block 1 "p" [Node.text 2 []]]) 2 = some pt →
        (⟨Node.container .document 0 "" [], ⟨none, 0, none, 0, false⟩⟩ : State).selection.endKey
            = some pt.key ∧
        (⟨Node.container .document 0 "" [], ⟨none, 0, none, 0, false⟩⟩ : State).selection.endOffset
            = (pt.textLength : Int)) ∧
      (getPreviousText (Node.container .document 0 ""
          [Node.container .block 1 "p" [Node.text 2 []]]) 2 = none →
        ∀ nt, getNextText (Node.container .document 0 ""
            [Node.container .block 1 "p" [Node.text 2 []]]) 2 = some nt →
          (⟨Node.container .document 0 "" [], ⟨none, 0, none, 0, false⟩⟩ : State).selection.endKey
              = some nt.key ∧
          (⟨Node.container .document 0 "" [],
              ⟨none, 0, none, 0, false⟩⟩ : State).selection.endOffset = 0) ∧
      (getPreviousText (Node.container .document 0 ""
          [Node.container .block 1 "p" [Node.text 2 []]]) 2 = none →
        getNextText (Node.container .document 0 ""
          [Node.container .block 1 "p" [Node.text 2 []]]) 2 = none →
        (⟨Node.container .document 0 "" [], ⟨none, 0, none, 0, false⟩⟩ : State).selection.anchorKey
            = none ∧
        (⟨Node.container .document 0 "" [], ⟨none, 0, none, 0, false⟩⟩ : State).selection.focusKey
            = none ∧
        (⟨Node.container .document 0 "" [], ⟨none, 0, none, 0, false⟩⟩ : State).selection.isSet
            = false))) :=
  ⟨by decide, by decide, by decide, by decide, by decide, by decide, by decide,
    remove_node_relocates_selection
      ⟨Node.container .document 0 "" [Node.container .block 1 "p" [Node.text 2 []]],
        ⟨some 2, 0, some 2, 0, false⟩⟩ [0]
      (Node.container .block 1 "p" [Node.text 2 []])
      ⟨Node.container .document 0 "" [], ⟨none, 0, none, 0, false⟩⟩
      2 2 (Node.text 2 []) (Node.text 2 [])
      (by decide) (by decide) (by decide) (by decide) (by decide) (by decide) (by decide)
      (by decide) (by decide)⟩


theorem dropWhileAppend {α : Type} : ∀ (l1 l2 : List α) (p : α → Bool),
    (∀ x ∈ l1, p x = true) → List.dropWhile p (l1 ++ l2) = List.dropWhile p l2 := by
  intro l1
  induction l1 with
  | nil => intro l2 p h; rfl
  | cons x xs ih =>
    intro l2 p h
    rw [List.cons_append, List.dropWhile_cons]
    rw [h x (List.mem_cons_self x xs)]
    simp only [if_true]
    exact ih l2 p (fun y hy => h y (List.mem_cons_of_mem x hy))

theorem appendGetElem {α : Type} : ∀ (l1 l2 : List α) (j : Nat),
    (l1 ++ l2)[l1.length + j]? = l2[j]? := by
  intro l1
  induction l1 with
  | nil => intro l2 j; simp
  | cons x xs ih =>
    intro l2 j
    rw [List.cons_append]
    have : (x :: xs).length + j = ((xs.length + j) + 1) := by simp; omega
    rw [this, List.getElem?_cons_succ]
    exact ih l2 j

theorem memTake {α : Type} : ∀ (l : List α) (i j : Nat) (c : α), j < i → l[j]? = some c →
    c ∈ l.take i := by
  intro l
  induction l with
  | nil => intro i j c _ h; cases h
  | cons x xs ih =>
    intro i j c hj h
    cases i with
    | zero => omega
    | succ i2 =>
      cases j with
      | zero =>
        simp only [List.getElem?_cons_zero, Option.some.injEq] at h
        subst h
        simp [List.take_succ_cons]
      | succ j2 =>
        simp only [List.getElem?_cons_succ] at h
        rw [List.take_succ_cons]
        exact List.mem_cons_of_mem x (ih i2 j2 c (by omega) h)

theorem indexOfNode_eq : ∀ (l : List Node) (v : Node) (i : Nat),
    l[i]? = some v → (∀ j, j < i → ∀ cj, l[j]? = some cj → cj ≠ v) →
    indexOfNode l v = i := by
  intro l
  induction l with
  | nil => intro v i h _; cases h
  | cons x xs ih =>
    intro v i h hlt
    cases i with
    | zero =>
      simp only [List.getElem?_cons_zero, Option.some.injEq] at h
      subst h
      simp [indexOfNode]
    | succ i2 =>
      simp only [List.getElem?_cons_succ] at h
      have hx : ¬ (x = v) := hlt 0 (by omega) x (by simp)
      rw [indexOfNode, if_neg hx]
      rw [ih v i2 h (fun j hj cj hcj => hlt (j + 1) (by omega) cj (by simpa using hcj))]


/-- C5: split_node on a Text node at `pp ++ [i]` succeeds, leaves the
left half under the original key and the right half under the fresh key
as adjacent siblings, and relocates every selection endpoint on the
original node whose offset is at or after `position` to the new right
sibling with its offset reduced by `position`, leaving an endpoint
strictly before `position` unchanged. -/
theorem split_node_rebases_selection
    (s : State) (pp : List Nat) (i : Nat) (k position newKey : Nat) (cs : List Character)
    (h_uniq : (allKeysN s.document).Nodup)
    (h_nd : assertPath s.document (pp ++ [i]) = some (Node.text k cs))
    (_h_fresh : newKey ∉ allKeysN s.document) :
    ∃ s2, split_node s (pp ++ [i]) position newKey = some s2 ∧
      assertPath s2.document (pp ++ [i]) = some (Node.text k (cs.take position)) ∧
      assertPath s2.document (pp ++ [i + 1]) = some (Node.text newKey (cs.drop position)) ∧
      s2.selection.anchorKey =
        (if s.selection.anchorKey = some k ∧ (position : Int) ≤ s.selection.anchorOffset
         then some newKey else s.selection.anchorKey) ∧
      s2.selection.anchorOffset =
        (if s.selection.anchorKey = some k ∧ (position : Int) ≤ s.selection.anchorOffset
         then s.selection.anchorOffset - position else s.selection.anchorOffset) ∧
      s2.selection.focusKey =
        (if s.selection.focusKey = some k ∧ (position : Int) ≤ s.selection.focusOffset
         then some newKey else s.selection.focusKey) ∧
      s2.selection.focusOffset =
        (if s.selection.focusKey = some k ∧ (position : Int) ≤ s.selection.focusOffset
         then s.selection.focusOffset - position else s.selection.focusOffset) := by
  have hsplit0 := assertPath_append pp [i] s.document
  rw [h_nd] at hsplit0
  cases hP : assertPath s.document pp with
  | none => rw [hP] at hsplit0; cases hsplit0
  | some P =>
    rw [hP] at hsplit0
    simp only [Option.some_bind] at hsplit0
    have hchild0 : assertPath P [i] = some (Node.text k cs) := hsplit0.symm
    cases P with
    | text pk pcs => simp [assertPath, Node.children] at hchild0
    | container kd pk pt ns =>
      simp only [assertPath, Node.children] at hchild0
      cases hchild : ns[i]? with
      | none => rw [hchild] at hchild0; cases hchild0
      | some c =>
        rw [hchild] at hchild0
        simp only [assertPath] at hchild0
        cases hchild0
        have hgpk : getPath s.document k = some (pp ++ [i]) := by
          have := getPath_of_assertPath (pp ++ [i]) s.document (Node.text k cs) h_uniq h_nd
          simpa [Node.key] using this
        obtain ⟨q0, qrest, hq⟩ : ∃ a l, pp ++ [i] = a :: l := by
          cases hpp : pp ++ [i] with
          | nil => exact absurd hpp (by simp)
          | cons a l => exact ⟨a, l, rfl⟩
        have hgparent : getParent s.document k = some (Node.container kd pk pt ns) := by
          simp only [getParent, hgpk, hq]
          have hdl : (q0 :: qrest).dropLast = pp := by rw [← hq]; simp
          show assertPath s.document ((q0 :: qrest).dropLast) = _
          rw [hdl]
          exact hP
        obtain ⟨KB, KA, B, A, hK, hT, hBk, hAk, hKBne, hrepl⟩ :=
          subtree_decomp pp s.document (Node.container kd pk pt ns) hP
        have hNodP : (allKeysN (Node.container kd pk pt ns)).Nodup := by
          rw [hK] at h_uniq
          exact h_uniq.of_append_right.of_append_left
        have hNodF : (allKeysF ns).Nodup := by
          have := hNodP
          rw [allKeysN_eq] at this
          exact (List.nodup_cons.mp this).2
        have hnsdec := listDecomp ns i (Node.text k cs) hchild
        have hFdec : allKeysF ns
            = allKeysF (ns.take i) ++ ([k] ++ allKeysF (ns.drop (i + 1))) := by
          conv_lhs => rw [hnsdec]
          rw [allKeysF_append, allKeysF_cons]
          rfl
        have hkF1 : k ∉ allKeysF (ns.take i) := by
          rw [hFdec] at hNodF
          intro hmem
          exact List.disjoint_of_nodup_append hNodF hmem (List.mem_append_left _ (by simp))
        have hidx : indexOfNode ns (Node.text k cs) = i := by
          refine indexOfNode_eq ns _ i hchild ?_
          intro j hj cj hcj heq
          subst heq
          exact hkF1 (mem_allKeysF_of_mem (ns.take i) _
            (memTake ns i j _ hj hcj) k (by simp [allKeysN]))
        have hsn : (Node.container kd pk pt ns).splitNode i position newKey
            = some (Node.container kd pk pt
              (ns.take i ++ [Node.text k (cs.take position), Node.text newKey (cs.drop position)]
                ++ ns.drop (i + 1))) := by
          simp [Node.splitNode, hchild]
        have hlt : i < ns.length := getElemLt ns i (Node.text k cs) hchild
        have hTlen : (ns.take i).length = i := by
          simp [List.length_take]
          omega
        have hdocif : (if (Node.container kd pk pt ns) = s.document
              then Node.container kd pk pt
                (ns.take i ++ [Node.text k (cs.take position), Node.text newKey (cs.drop position)]
                  ++ ns.drop (i + 1))
              else updateDescendant s.document (Node.container kd pk pt
                (ns.take i ++ [Node.text k (cs.take position), Node.text newKey (cs.drop position)]
                  ++ ns.drop (i + 1))))
            = setAtPath s.document pp (Node.container kd pk pt
                (ns.take i ++ [Node.text k (cs.take position), Node.text newKey (cs.drop position)]
                  ++ ns.drop (i + 1))) := by
          cases hpp2 : pp with
          | nil =>
            rw [hpp2] at hP
            simp only [assertPath, Option.some.injEq] at hP
            rw [← hP]
            simp [setAtPath]
          | cons z zs =>
            have hPne : ¬ (Node.container kd pk pt ns = s.document) := by
              intro he
              have hK2 := hK
              rw [← he] at hK2
              have hlen := congrArg List.length hK2
              simp only [List.length_append] at hlen
              have hKBnil : KB.length = 0 := by omega
              exact hKBne (by rw [hpp2]; simp) (List.length_eq_zero.mp hKBnil)
            rw [if_neg hPne]
            have hgpp : getPath s.document pk = some pp := by
              have := getPath_of_assertPath pp s.document (Node.container kd pk pt ns) h_uniq hP
              simpa [Node.key] using this
            rw [updateDescendant]
            have hkeyq : (Node.container kd pk pt
                (ns.take i ++ [Node.text k (cs.take position), Node.text newKey (cs.drop position)]
                  ++ ns.drop (i + 1))).key = pk := rfl
            rw [hkeyq, hgpp, hpp2]
        have hrepl2 := (hrepl (Node.container kd pk pt
          (ns.take i ++ [Node.text k (cs.take position), Node.text newKey (cs.drop position)]
            ++ ns.drop (i + 1)))).2
        have hTP : getTexts (Node.container kd pk pt
            (ns.take i ++ [Node.text k (cs.take position), Node.text newKey (cs.drop position)]
              ++ ns.drop (i + 1)))
            = getTextsL (ns.take i) ++ (Node.text k (cs.take position)
              :: Node.text newKey (cs.drop position) :: getTextsL (ns.drop (i + 1))) := by
          show getTextsL _ = _
          rw [getTextsL_append, getTextsL_append]
          simp [getTextsL_cons, getTexts, getTextsL]
        have hasP1 : assertPath (Node.container kd pk pt ns) [i] = some (Node.text k cs) := by
          simp [assertPath, Node.children, hchild]
        have hkP : k ∈ allKeysN (Node.container kd pk pt ns) := by
          have := assertPath_key_mem [i] (Node.container kd pk pt ns) (Node.text k cs) hasP1
          simpa [Node.key] using this
        have hdisjKB : ∀ x ∈ KB, x ≠ k := by
          intro x hx he
          rw [hK] at h_uniq
          exact List.disjoint_of_nodup_append h_uniq hx (List.mem_append_left _ (he ▸ hkP))
        have hfront : ∀ t ∈ B ++ getTextsL (ns.take i), (t.key != k) = true := by
          intro t ht
          rcases List.mem_append.mp ht with h6 | h6
          · have := hdisjKB t.key (hBk t h6)
            simpa [bne_iff_ne] using this
          · have := textKey_mem.2 (ns.take i) t h6
            have hne2 : t.key ≠ k := fun he => hkF1 (he ▸ this)
            simpa [bne_iff_ne] using hne2
        have hnext : getNextText (setAtPath s.document pp (Node.container kd pk pt
            (ns.take i ++ [Node.text k (cs.take position), Node.text newKey (cs.drop position)]
              ++ ns.drop (i + 1)))) k = some (Node.text newKey (cs.drop position)) := by
          rw [getNextText, hrepl2, hTP]
          have hassoc : B ++ ((getTextsL (ns.take i) ++ (Node.text k (cs.take position)
              :: Node.text newKey (cs.drop position) :: getTextsL (ns.drop (i + 1)))) ++ A)
              = (B ++ getTextsL (ns.take i)) ++ (Node.text k (cs.take position)
                :: Node.text newKey (cs.drop position) :: (getTextsL (ns.drop (i + 1)) ++ A)) := by
            simp [List.append_assoc]
          rw [hassoc, dropWhileAppend _ _ _ hfront]
          rw [List.dropWhile_cons]
          have : ((Node.text k (cs.take position)).key != k) = false := by
            simp [Node.key]
          rw [this]
          simp
        refine ⟨⟨setAtPath s.document pp (Node.container kd pk pt
            (ns.take i ++ [Node.text k (cs.take position), Node.text newKey (cs.drop position)]
              ++ ns.drop (i + 1))),
            (if s.selection.startKey = some k ∧ (position : Int) ≤ s.selection.startOffset
             then (if s.selection.endKey = some k ∧ (position : Int) ≤ s.selection.endOffset
               then (s.selection.moveStartTo newKey (s.selection.startOffset - position)).moveEndTo
                 newKey (s.selection.endOffset - position)
               else s.selection.moveStartTo newKey (s.selection.startOffset - position))
             else (if s.selection.endKey = some k ∧ (position : Int) ≤ s.selection.endOffset
               then s.selection.moveEndTo newKey (s.selection.endOffset - position)
               else s.selection))⟩, ?_, ?_, ?_, ?_, ?_, ?_, ?_⟩
        · simp only [split_node, h_nd, bind, Option.bind, hgparent, Node.children, hidx, hsn,
            hdocif, hnext, Node.key]
          split_ifs <;> rfl
        · have hD := assertPath_setAtPath_self pp s.document (Node.container kd pk pt ns)
            (Node.container kd pk pt (ns.take i
              ++ [Node.text k (cs.take position), Node.text newKey (cs.drop position)]
              ++ ns.drop (i + 1))) hP
          rw [assertPath_append, hD]
          simp only [Option.some_bind, assertPath, Node.children]
          have hget : ((ns.take i
              ++ [Node.text k (cs.take position), Node.text newKey (cs.drop position)])
              ++ ns.drop (i + 1))[i]? = some (Node.text k (cs.take position)) := by
            rw [List.append_assoc]
            have := appendGetElem (ns.take i) ([Node.text k (cs.take position),
              Node.text newKey (cs.drop position)] ++ ns.drop (i + 1)) 0
            rw [hTlen] at this
            simpa using this
          rw [hget]
        · have hD := assertPath_setAtPath_self pp s.document (Node.container kd pk pt ns)
            (Node.container kd pk pt (ns.take i
              ++ [Node.text k (cs.take position), Node.text newKey (cs.drop position)]
              ++ ns.drop (i + 1))) hP
          rw [assertPath_append, hD]
          simp only [Option.some_bind, assertPath, Node.children]
          have hget : ((ns.take i
              ++ [Node.text k (cs.take position), Node.text newKey (cs.drop position)])
              ++ ns.drop (i + 1))[i + 1]? = some (Node.text newKey (cs.drop position)) := by
            rw [List.append_assoc]
            have := appendGetElem (ns.take i) ([Node.text k (cs.take position),
              Node.text newKey (cs.drop position)] ++ ns.drop (i + 1)) 1
            rw [hTlen] at this
            simpa using this
          rw [hget]
        · cases hib : s.selection.isBackward <;>
            simp only [Selection.moveStartTo, Selection.moveEndTo, Selection.moveAnchorTo,
              Selection.moveFocusTo, Selection.startKey, Selection.startOffset,
              Selection.endKey, Selection.endOffset, hib, Bool.false_eq_true, if_true,
              if_false] <;>
            split_ifs <;>
            rfl
        · cases hib : s.selection.isBackward <;>
            simp only [Selection.moveStartTo, Selection.moveEndTo, Selection.moveAnchorTo,
              Selection.moveFocusTo, Selection.startKey, Selection.startOffset,
              Selection.endKey, Selection.endOffset, hib, Bool.false_eq_true, if_true,
              if_false] <;>
            split_ifs <;>
            rfl
        · cases hib : s.selection.isBackward <;>
            simp only [Selection.moveStartTo, Selection.moveEndTo, Selection.moveAnchorTo,
              Selection.moveFocusTo, Selection.startKey, Selection.startOffset,
              Selection.endKey, Selection.endOffset, hib, Bool.false_eq_true, if_true,
              if_false] <;>
            split_ifs <;>
            rfl
        · cases hib : s.selection.isBackward <;>
            simp only [Selection.moveStartTo, Selection.moveEndTo, Selection.moveAnchorTo,
              Selection.moveFocusTo, Selection.startKey, Selection.startOffset,
              Selection.endKey, Selection.endOffset, hib, Bool.false_eq_true, if_true,
              if_false] <;>
            split_ifs <;>
            rfl


theorem split_node_rebases_selection_witness :
    ((allKeysN (Node.container .document 0 ""
        [Node.container .block 1 "p" [Node.text 2 [⟨'a', []⟩, ⟨'b', []⟩, ⟨'c', []⟩]]])).Nodup) ∧
    (assertPath (Node.container .document 0 ""
        [Node.container .block 1 "p" [Node.text 2 [⟨'a', []⟩, ⟨'b', []⟩, ⟨'c', []⟩]]])
        ([0] ++ [0]) = some (Node.text 2 [⟨'a', []⟩, ⟨'b', []⟩, ⟨'c', []⟩])) ∧
    ((9 : Nat) ∉ allKeysN (Node.container .document 0 ""
        [Node.container .block 1 "p" [Node.text 2 [⟨'a', []⟩, ⟨'b', []⟩, ⟨'c', []⟩]]])) ∧
    (∃ s2, split_node ⟨Node.container .document 0 ""
        [Node.container .block 1 "p" [Node.text 2 [⟨'a', []⟩, ⟨'b', []⟩, ⟨'c', []⟩]]],
        ⟨some 2, 2, some 2, 0, false⟩⟩ ([0] ++ [0]) 1 9 = some s2 ∧
      assertPath s2.document ([0] ++ [0])
        = some (Node.text 2 ([⟨'a', []⟩, ⟨'b', []⟩, ⟨'c', []⟩].take 1)) ∧
      assertPath s2.document ([0] ++ [0 + 1])
        = some (Node.text 9 ([⟨'a', []⟩, ⟨'b', []⟩, ⟨'c', []⟩].drop 1)) ∧
      s2.selection.anchorKey =
        (if (⟨some 2, 2, some 2, 0, false⟩ : Selection).anchorKey = some 2
            ∧ ((1 : Nat) : Int) ≤ (⟨some 2, 2, some 2, 0, false⟩ : Selection).anchorOffset
         then some 9 else (⟨some 2, 2, some 2, 0, false⟩ : Selection).anchorKey) ∧
      s2.selection.anchorOffset =
        (if (⟨some 2, 2, some 2, 0, false⟩ : Selection).anchorKey = some 2
            ∧ ((1 : Nat) : Int) ≤ (⟨some 2, 2, some 2, 0, false⟩ : Selection).anchorOffset
         then (⟨some 2, 2, some 2, 0, false⟩ : Selection).anchorOffset - (1 : Nat)
         else (⟨some 2, 2, some 2, 0, false⟩ : Selection).anchorOffset) ∧
      s2.selection.focusKey =
        (if (⟨some 2, 2, some 2, 0, false⟩ : Selection).focusKey = some 2
            ∧ ((1 : Nat) : Int) ≤ (⟨some 2, 2, some 2, 0, false⟩ : Selection).focusOffset
         then some 9 else (⟨some 2, 2, some 2, 0, false⟩ : Selection).focusKey) ∧
      s2.selection.focusOffset =
        (if (⟨some 2, 2, some 2, 0, false⟩ : Selection).focusKey = some 2
            ∧ ((1 : Nat) : Int) ≤ (⟨some 2, 2, some 2, 0, false⟩ : Selection).focusOffset
         then (⟨some 2, 2, some 2, 0, false⟩ : Selection).focusOffset - (1 : Nat)
         else (⟨some 2, 2, some 2, 0, false⟩ : Selection).focusOffset)) :=
  ⟨by decide, by decide, by decide,
    split_node_rebases_selection
      ⟨Node.container .document 0 ""
        [Node.container .block 1 "p" [Node.text 2 [⟨'a', []⟩, ⟨'b', []⟩, ⟨'c', []⟩]]],
        ⟨some 2, 2, some 2, 0, false⟩⟩
      [0] 0 2 1 9 [⟨'a', []⟩, ⟨'b', []⟩, ⟨'c', []⟩]
      (by decide) (by decide) (by decide)⟩

theorem sumRangeLens_cons (r : TextRange) (rs : List TextRange) :
    sumRangeLens (r :: rs) = r.text.length + sumRangeLens rs := by
  simp [sumRangeLens]

theorem getRangesAux_sum : ∀ (rest : List Character) (acc : List Char) (m : List Mark),
    sumRangeLens (getRangesAux rest acc m) = rest.length + acc.length := by
  intro rest
  induction rest with
  | nil => intro acc m; simp [getRangesAux, sumRangeLens]
  | cons c r ih =>
    intro acc m
    simp only [getRangesAux]
    by_cases h : c.marks = m
    · rw [if_pos h, ih]
      simp only [List.length_cons]
      omega
    · rw [if_neg h, sumRangeLens_cons, ih]
      simp only [List.length_reverse, List.length_cons, List.length_nil]
      omega

theorem getRanges_sum (cs : List Character) : sumRangeLens (getRanges cs) = cs.length := by
  cases cs with
  | nil => rfl
  | cons c rest =>
    simp only [getRanges]
    rw [getRangesAux_sum]
    simp

theorem buildRemovals_ops : ∀ (ranges : List TextRange) (o : Nat) (path : List Nat)
    (text : List Char) (bx bEnd : Nat),
    (∀ op ∈ buildRemovals path text bx bEnd ranges o,
      (∃ s txt mks, op = Op.remove_text path s txt mks) ∧ max o bx ≤ opOffset op) ∧
    List.Pairwise (fun a b => a ≤ b)
      ((buildRemovals path text bx bEnd ranges o).map opOffset) := by
  intro ranges
  induction ranges with
  | nil =>
    intro o path text bx bEnd
    refine ⟨?_, ?_⟩
    · intro op h
      simp only [buildRemovals] at h
      cases h
    · simp [buildRemovals]
  | cons r rest ih =>
    intro o path text bx bEnd
    obtain ⟨ihMem, ihPw⟩ := ih (o + r.text.length) path text bx bEnd
    by_cases hskip : o + r.text.length < bx ∨ bEnd < o
    · refine ⟨?_, ?_⟩
      · intro op h
        simp only [buildRemovals, if_pos hskip, List.nil_append] at h
        obtain ⟨hshape, hle⟩ := ihMem op h
        exact ⟨hshape, le_trans (by omega) hle⟩
      · simp only [buildRemovals, if_pos hskip, List.nil_append]
        exact ihPw
    · refine ⟨?_, ?_⟩
      · intro op h
        simp only [buildRemovals, if_neg hskip, List.singleton_append, List.mem_cons] at h
        rcases h with h | h
        · subst h
          refine ⟨⟨_, _, _, rfl⟩, ?_⟩
          simp only [opOffset]
          omega
        · obtain ⟨hshape, hle⟩ := ihMem op h
          exact ⟨hshape, le_trans (by omega) hle⟩
      · simp only [buildRemovals, if_neg hskip, List.singleton_append, List.map_cons]
        refine List.pairwise_cons.mpr ⟨?_, ihPw⟩
        intro b hb
        obtain ⟨op, hop, rfl⟩ := List.mem_map.mp hb
        have hle := (ihMem op hop).2
        have hhead : opOffset (Op.remove_text path (max o bx)
            ((text.drop (max o bx)).take (min (o + r.text.length) bEnd - max o bx)) r.marks)
            = max o bx := rfl
        rw [hhead]
        omega

theorem buildRemovals_foldr : ∀ (ranges : List TextRange) (o : Nat) (path : List Nat)
    (text : List Char) (bx bEnd : Nat) (cs : List Character),
    bx ≤ bEnd → bEnd ≤ cs.length → text.length = cs.length →
    o + sumRangeLens ranges = cs.length →
    (buildRemovals path text bx bEnd ranges o).foldr (fun op l => eraseChars op l) cs
      = cs.take (max bx (min o bEnd)) ++ cs.drop bEnd := by
  intro ranges
  induction ranges with
  | nil =>
    intro o path text bx bEnd cs h1 h2 _ h4
    have ho : o = cs.length := by simpa [sumRangeLens] using h4
    have hM : max bx (min o bEnd) = bEnd := by omega
    simp only [buildRemovals, List.foldr_nil, hM, List.take_append_drop]
  | cons r rest ih =>
    intro o path text bx bEnd cs h1 h2 h3 h4
    rw [sumRangeLens_cons] at h4
    have ihr := ih (o + r.text.length) path text bx bEnd cs h1 h2 h3 (by omega)
    by_cases hskip : o + r.text.length < bx ∨ bEnd < o
    · have hM : max bx (min (o + r.text.length) bEnd) = max bx (min o bEnd) := by omega
      simp only [buildRemovals, if_pos hskip, List.nil_append, ihr, hM]
    · have hbx : bx ≤ o + r.text.length := by omega
      have hob : o ≤ bEnd := by omega
      simp only [buildRemovals, if_neg hskip, List.singleton_append, List.foldr_cons, ihr]
      simp only [eraseChars]
      have htxt : ((text.drop (max o bx)).take
            (min (o + r.text.length) bEnd - max o bx)).length
          = min (o + r.text.length) bEnd - max o bx := by
        simp only [List.length_take, List.length_drop]
        omega
      rw [htxt]
      have hse : max o bx + (min (o + r.text.length) bEnd - max o bx)
          = min (o + r.text.length) bEnd := by omega
      rw [hse]
      have hM2 : max bx (min (o + r.text.length) bEnd) = min (o + r.text.length) bEnd := by
        omega
      rw [hM2]
      rw [List.take_append_eq_append_take, List.take_take, List.drop_append_eq_append_drop]
      have hel : (cs.take (min (o + r.text.length) bEnd)).length
          = min (o + r.text.length) bEnd := by
        simp only [List.length_take]
        omega
      rw [hel]
      have h5 : min (max o bx) (min (o + r.text.length) bEnd) = max bx (min o bEnd) := by
        omega
      have h6 : max o bx - min (o + r.text.length) bEnd = 0 := by omega
      have h7 : (cs.take (min (o + r.text.length) bEnd)).drop
            (min (o + r.text.length) bEnd) = [] := by
        apply List.drop_eq_nil_of_le
        simp only [List.length_take]
        omega
      have h8 : min (o + r.text.length) bEnd - min (o + r.text.length) bEnd = 0 :=
        Nat.sub_self _
      rw [h5, h6, h7, h8, List.take_zero, List.append_nil, List.drop_zero, List.nil_append]

theorem runRemovals : ∀ (ops : List Op) (p : List Nat) (k : Nat),
    (∀ op ∈ ops, ∃ o txt mks, op = Op.remove_text p o txt mks) →
    ∀ (t : TState) (cs : List Character),
    (allKeysN t.state.document).Nodup →
    assertPath t.state.document p = some (Node.text k cs) →
    p ≠ [] →
    ∃ t2, List.foldlM applyOperationT t ops = some t2 ∧
      allKeysN t2.state.document = allKeysN t.state.document ∧
      assertPath t2.state.document p
        = some (Node.text k (ops.foldl (fun l op => eraseChars op l) cs)) ∧
      t2.events = t.events ++ ops.map Event.applyOp ∧
      t2.nextKey = t.nextKey := by
  intro ops
  induction ops with
  | nil =>
    intro p k _ t cs _ hassert _
    refine ⟨t, rfl, rfl, ?_, by simp, rfl⟩
    simpa using hassert
  | cons op rest ih =>
    intro p k hshape t cs hnodup hassert hp
    obtain ⟨o, txt, mks, rfl⟩ := hshape op (List.mem_cons_self op rest)
    have hgp : getPath t.state.document k = some p := by
      have h := getPath_of_assertPath p t.state.document (Node.text k cs) hnodup hassert
      simpa [Node.key] using h
    have hupd : updateDescendant t.state.document
          (Node.text k (cs.take o ++ cs.drop (o + txt.length)))
        = setAtPath t.state.document p (Node.text k (cs.take o ++ cs.drop (o + txt.length))) := by
      have hkey2 : (Node.text k (cs.take o ++ cs.drop (o + txt.length))).key = k := rfl
      rw [updateDescendant, hkey2, hgp]
      cases p with
      | nil => exact absurd rfl hp
      | cons a b => rfl
    cases hrt : remove_text t.state p o txt with
    | none =>
      exfalso
      simp [remove_text, hassert, Node.removeText] at hrt
    | some s1 =>
      have hdoc : s1.document
          = setAtPath t.state.document p
              (Node.text k (cs.take o ++ cs.drop (o + txt.length))) := by
        simp only [remove_text, hassert, bind, Option.bind, Node.removeText, Node.key,
          Option.some.injEq] at hrt
        rw [← hrt]
        exact hupd
      have hone : applyOperationT t (Op.remove_text p o txt mks)
          = some { state := s1, nextKey := t.nextKey,
                   events := t.events ++ [Event.applyOp (Op.remove_text p o txt mks)] } := by
        simp only [applyOperationT, applyOperation, hrt, bind, Option.bind]
      obtain ⟨KB, KA, B, A, hK, _, _, _, _, hrepl⟩ :=
        subtree_decomp p t.state.document (Node.text k cs) hassert
      have hKeq : allKeysN s1.document = allKeysN t.state.document := by
        rw [hdoc, (hrepl (Node.text k (cs.take o ++ cs.drop (o + txt.length)))).1, hK]
        simp [allKeysN]
      have hassert1 : assertPath s1.document p
          = some (Node.text k (cs.take o ++ cs.drop (o + txt.length))) := by
        rw [hdoc]
        exact assertPath_setAtPath_self p t.state.document (Node.text k cs) _ hassert
      have hnodup1 : (allKeysN s1.document).Nodup := by
        rw [hKeq]; exact hnodup
      obtain ⟨t2, hfold, hK2, hassert2, hev2, hnk2⟩ :=
        ih p k (fun op2 h2 => hshape op2 (List.mem_cons_of_mem _ h2))
          { state := s1, nextKey := t.nextKey,
            events := t.events ++ [Event.applyOp (Op.remove_text p o txt mks)] }
          (cs.take o ++ cs.drop (o + txt.length)) hnodup1 hassert1 hp
      refine ⟨t2, ?_, ?_, ?_, ?_, ?_⟩
      · rw [List.foldlM_cons, hone]
        simpa using hfold
      · rw [hK2]
        exact hKeq
      · have hstep : (Op.remove_text p o txt mks :: rest).foldl
              (fun l op => eraseChars op l) cs
            = rest.foldl (fun l op => eraseChars op l)
                (cs.take o ++ cs.drop (o + txt.length)) := by
          rw [List.foldl_cons]
          simp only [eraseChars]
        rw [hstep]
        exact hassert2
      · rw [hev2]
        simp
      · exact hnk2

/-- C7: `removeTextByKey(key, offset, length)` decomposes the span
[offset, offset+length) of the Text node into one remove_text operation
per overlapping range fragment (each a remove_text on the node's path,
with non-decreasing offsets, so the reversed application order is
reverse document order), applies exactly those removals in reverse, and
the remaining text is the original with exactly the characters in
[offset, offset+length) deleted, wherever the mark-range boundaries
fall. -/
theorem removeTextByKey_removes_span
    (t : TState) (key offset length : Nat) (normalize : Bool) (cs : List Character)
    (p : List Nat) (t2 : TState)
    (h_uniq : (allKeysN t.state.document).Nodup)
    (h_path : getPath t.state.document key = some p)
    (h_node : assertPath t.state.document p = some (Node.text key cs))
    (h_root : p ≠ [])
    (h_bounds : offset + length ≤ cs.length)
    (h_run : removeTextByKey t key offset length normalize = some t2) :
    getNode t2.state.document key
      = some (Node.text key (cs.take offset ++ cs.drop (offset + length))) ∧
    (∀ op ∈ buildRemovals p (cs.map (fun c => c.char)) offset (offset + length)
        (getRanges cs) 0, ∃ o txt mks, op = Op.remove_text p o txt mks) ∧
    List.Pairwise (fun a b => a ≤ b)
      ((buildRemovals p (cs.map (fun c => c.char)) offset (offset + length)
          (getRanges cs) 0).map opOffset) ∧
    ∃ tail, t2.events = t.events
        ++ ((buildRemovals p (cs.map (fun c => c.char)) offset (offset + length)
              (getRanges cs) 0).reverse.map Event.applyOp)
        ++ tail
      ∧ (normalize = false → tail = [])
      ∧ ∀ e ∈ tail, ∃ bk, e = Event.normalizeKey bk := by
  have hgn : getNode t.state.document key = some (Node.text key cs) := by
    simp only [getNode, h_path, Option.bind]
    exact h_node
  have hops : ∀ op ∈ (buildRemovals p (cs.map (fun c => c.char)) offset (offset + length)
      (getRanges cs) 0).reverse, ∃ o txt mks, op = Op.remove_text p o txt mks := by
    intro op hop
    rw [List.mem_reverse] at hop
    exact ((buildRemovals_ops (getRanges cs) 0 p (cs.map (fun c => c.char))
      offset (offset + length)).1 op hop).1
  obtain ⟨t1, hfold, hK1, hassert1, hev1, _⟩ :=
    runRemovals ((buildRemovals p (cs.map (fun c => c.char)) offset (offset + length)
        (getRanges cs) 0).reverse) p key hops t cs h_uniq h_node h_root
  have hfoldchars : ((buildRemovals p (cs.map (fun c => c.char)) offset (offset + length)
        (getRanges cs) 0).reverse).foldl (fun l op => eraseChars op l) cs
      = cs.take offset ++ cs.drop (offset + length) := by
    simp only [List.foldl_reverse]
    have hbr := buildRemovals_foldr (getRanges cs) 0 p (cs.map (fun c => c.char))
      offset (offset + length) cs (by omega) h_bounds (by simp)
      (by simpa using getRanges_sum cs)
    rw [hbr]
    have hM : max offset (min 0 (offset + length)) = offset := by omega
    rw [hM]
  have hnodup1 : (allKeysN t1.state.document).Nodup := by
    rw [hK1]; exact h_uniq
  have hgp1 : getPath t1.state.document key = some p := by
    have h := getPath_of_assertPath p t1.state.document _ hnodup1 hassert1
    simpa [Node.key] using h
  have hGN1 : getNode t1.state.document key
      = some (Node.text key (cs.take offset ++ cs.drop (offset + length))) := by
    simp only [getNode, hgp1, Option.bind]
    rw [hassert1, hfoldchars]
  simp only [removeTextByKey, h_path, hgn, Node.asTextChars, bind, Option.bind, hfold]
    at h_run
  cases normalize with
  | false =>
    simp at h_run
    subst h_run
    refine ⟨hGN1, ?_, ?_, ⟨[], ?_, fun _ => rfl, by simp⟩⟩
    · exact fun op hop => ((buildRemovals_ops (getRanges cs) 0 p (cs.map (fun c => c.char))
        offset (offset + length)).1 op hop).1
    · exact (buildRemovals_ops (getRanges cs) 0 p (cs.map (fun c => c.char))
        offset (offset + length)).2
    · rw [hev1]
      simp
  | true =>
    rw [if_pos rfl] at h_run
    cases hblk : getClosestBlock t.state.document key with
    | none =>
      rw [hblk] at h_run
      cases h_run
    | some blk =>
      rw [hblk] at h_run
      simp only [optBindSomeEq, Option.some.injEq] at h_run
      subst h_run
      refine ⟨hGN1, ?_, ?_, ⟨[Event.normalizeKey blk.key], ?_, ?_, ?_⟩⟩
      · exact fun op hop => ((buildRemovals_ops (getRanges cs) 0 p (cs.map (fun c => c.char))
          offset (offset + length)).1 op hop).1
      · exact (buildRemovals_ops (getRanges cs) 0 p (cs.map (fun c => c.char))
          offset (offset + length)).2
      · show (normalizeNodeByKey t1 blk.key).events = _
        simp only [normalizeNodeByKey]
        rw [hev1]
      · intro hfalse
        exact Bool.noConfusion hfalse
      · intro e he
        simp only [List.mem_singleton] at he
        exact ⟨blk.key, he⟩

set_option maxHeartbeats 2000000 in
theorem removeTextByKey_removes_span_witness :
    ((allKeysN (Node.container .document 0 "" [Node.container .block 1 "p" [Node.text 2 [⟨'a', []⟩, ⟨'b', []⟩, ⟨'c', []⟩, ⟨'d', [⟨"b"⟩]⟩, ⟨'e', [⟨"b"⟩]⟩, ⟨'f', [⟨"b"⟩]⟩]]])).Nodup) ∧
    (getPath (Node.container .document 0 "" [Node.container .block 1 "p" [Node.text 2 [⟨'a', []⟩, ⟨'b', []⟩, ⟨'c', []⟩, ⟨'d', [⟨"b"⟩]⟩, ⟨'e', [⟨"b"⟩]⟩, ⟨'f', [⟨"b"⟩]⟩]]]) 2 = some [0, 0]) ∧
    (assertPath (Node.container .document 0 "" [Node.container .block 1 "p" [Node.text 2 [⟨'a', []⟩, ⟨'b', []⟩, ⟨'c', []⟩, ⟨'d', [⟨"b"⟩]⟩, ⟨'e', [⟨"b"⟩]⟩, ⟨'f', [⟨"b"⟩]⟩]]]) [0, 0] = some (Node.text 2 [⟨'a', []⟩, ⟨'b', []⟩, ⟨'c', []⟩, ⟨'d', [⟨"b"⟩]⟩, ⟨'e', [⟨"b"⟩]⟩, ⟨'f', [⟨"b"⟩]⟩])) ∧
    (([0, 0] : List Nat) ≠ []) ∧
    (2 + 3 ≤ ([⟨'a', []⟩, ⟨'b', []⟩, ⟨'c', []⟩, ⟨'d', [⟨"b"⟩]⟩, ⟨'e', [⟨"b"⟩]⟩, ⟨'f', [⟨"b"⟩]⟩] : List Character).length) ∧
    (removeTextByKey (⟨⟨Node.container .document 0 "" [Node.container .block 1 "p" [Node.text 2 [⟨'a', []⟩, ⟨'b', []⟩, ⟨'c', []⟩, ⟨'d', [⟨"b"⟩]⟩, ⟨'e', [⟨"b"⟩]⟩, ⟨'f', [⟨"b"⟩]⟩]]], ⟨none, 0, none, 0, false⟩⟩, 100, []⟩ : TState) 2 2 3 true = some (⟨⟨Node.container .document 0 "" [Node.container .block 1 "p" [Node.text 2 [⟨'a', []⟩, ⟨'b', []⟩, ⟨'f', [⟨"b"⟩]⟩]]], ⟨none, 0, none, 0, false⟩⟩, 100, [Event.applyOp (Op.remove_text [0, 0] 3 ['d', 'e'] [⟨"b"⟩]), Event.applyOp (Op.remove_text [0, 0] 2 ['c'] []), Event.normalizeKey 1]⟩ : TState)) ∧
    (getNode ((⟨⟨Node.container .document 0 "" [Node.container .block 1 "p" [Node.text 2 [⟨'a', []⟩, ⟨'b', []⟩, ⟨'f', [⟨"b"⟩]⟩]]], ⟨none, 0, none, 0, false⟩⟩, 100, [Event.applyOp (Op.remove_text [0, 0] 3 ['d', 'e'] [⟨"b"⟩]), Event.applyOp (Op.remove_text [0, 0] 2 ['c'] []), Event.normalizeKey 1]⟩ : TState)).state.document 2
        = some (Node.text 2 (([⟨'a', []⟩, ⟨'b', []⟩, ⟨'c', []⟩, ⟨'d', [⟨"b"⟩]⟩, ⟨'e', [⟨"b"⟩]⟩, ⟨'f', [⟨"b"⟩]⟩] : List Character).take 2
            ++ ([⟨'a', []⟩, ⟨'b', []⟩, ⟨'c', []⟩, ⟨'d', [⟨"b"⟩]⟩, ⟨'e', [⟨"b"⟩]⟩, ⟨'f', [⟨"b"⟩]⟩] : List Character).drop (2 + 3))) ∧
      (∀ op ∈ buildRemovals [0, 0] (([⟨'a', []⟩, ⟨'b', []⟩, ⟨'c', []⟩, ⟨'d', [⟨"b"⟩]⟩, ⟨'e', [⟨"b"⟩]⟩, ⟨'f', [⟨"b"⟩]⟩] : List Character).map (fun c => c.char)) 2 (2 + 3) (getRanges [⟨'a', []⟩, ⟨'b', []⟩, ⟨'c', []⟩, ⟨'d', [⟨"b"⟩]⟩, ⟨'e', [⟨"b"⟩]⟩, ⟨'f', [⟨"b"⟩]⟩]) 0,
        ∃ o txt mks, op = Op.remove_text [0, 0] o txt mks) ∧
      List.Pairwise (fun a b => a ≤ b) ((buildRemovals [0, 0] (([⟨'a', []⟩, ⟨'b', []⟩, ⟨'c', []⟩, ⟨'d', [⟨"b"⟩]⟩, ⟨'e', [⟨"b"⟩]⟩, ⟨'f', [⟨"b"⟩]⟩] : List Character).map (fun c => c.char)) 2 (2 + 3) (getRanges [⟨'a', []⟩, ⟨'b', []⟩, ⟨'c', []⟩, ⟨'d', [⟨"b"⟩]⟩, ⟨'e', [⟨"b"⟩]⟩, ⟨'f', [⟨"b"⟩]⟩]) 0).map opOffset) ∧
      ∃ tail, ((⟨⟨Node.container .document 0 "" [Node.container .block 1 "p" [Node.text 2 [⟨'a', []⟩, ⟨'b', []⟩, ⟨'f', [⟨"b"⟩]⟩]]], ⟨none, 0, none, 0, false⟩⟩, 100, [Event.applyOp (Op.remove_text [0, 0] 3 ['d', 'e'] [⟨"b"⟩]), Event.applyOp (Op.remove_text [0, 0] 2 ['c'] []), Event.normalizeKey 1]⟩ : TState)).events = ((⟨⟨Node.container .document 0 "" [Node.container .block 1 "p" [Node.text 2 [⟨'a', []⟩, ⟨'b', []⟩, ⟨'c', []⟩, ⟨'d', [⟨"b"⟩]⟩, ⟨'e', [⟨"b"⟩]⟩, ⟨'f', [⟨"b"⟩]⟩]]], ⟨none, 0, none, 0, false⟩⟩, 100, []⟩ : TState)).events
          ++ ((buildRemovals [0, 0] (([⟨'a', []⟩, ⟨'b', []⟩, ⟨'c', []⟩, ⟨'d', [⟨"b"⟩]⟩, ⟨'e', [⟨"b"⟩]⟩, ⟨'f', [⟨"b"⟩]⟩] : List Character).map (fun c => c.char)) 2 (2 + 3) (getRanges [⟨'a', []⟩, ⟨'b', []⟩, ⟨'c', []⟩, ⟨'d', [⟨"b"⟩]⟩, ⟨'e', [⟨"b"⟩]⟩, ⟨'f', [⟨"b"⟩]⟩]) 0).reverse.map Event.applyOp)
          ++ tail
        ∧ (true = false → tail = [])
        ∧ ∀ e ∈ tail, ∃ bk, e = Event.normalizeKey bk) :=
  ⟨by decide, by decide, by decide, by decide, by decide, by decide,
    removeTextByKey_removes_span (⟨⟨Node.container .document 0 "" [Node.container .block 1 "p" [Node.text 2 [⟨'a', []⟩, ⟨'b', []⟩, ⟨'c', []⟩, ⟨'d', [⟨"b"⟩]⟩, ⟨'e', [⟨"b"⟩]⟩, ⟨'f', [⟨"b"⟩]⟩]]], ⟨none, 0, none, 0, false⟩⟩, 100, []⟩ : TState) 2 2 3 true [⟨'a', []⟩, ⟨'b', []⟩, ⟨'c', []⟩, ⟨'d', [⟨"b"⟩]⟩, ⟨'e', [⟨"b"⟩]⟩, ⟨'f', [⟨"b"⟩]⟩] [0, 0] (⟨⟨Node.container .document 0 "" [Node.container .block 1 "p" [Node.text 2 [⟨'a', []⟩, ⟨'b', []⟩, ⟨'f', [⟨"b"⟩]⟩]]], ⟨none, 0, none, 0, false⟩⟩, 100, [Event.applyOp (Op.remove_text [0, 0] 3 ['d', 'e'] [⟨"b"⟩]), Event.applyOp (Op.remove_text [0, 0] 2 ['c'] []), Event.normalizeKey 1]⟩ : TState)
      (by decide) (by decide) (by decide) (by decide) (by decide) (by decide)⟩

end Slate
